import Mathlib

/-!
Verification of the `phono` syllabification engine (`transcribe.py`,
`dictionaries.py`).

Strings are embedded as `List Char`.  Python index errors (`IndexError`) are
modelled by `Option`: a function returns `none` exactly when the Python code
would raise on an out-of-range index.  The phonetic classification table
`PHON_DICT` is loaded from a CSV file that is not part of the sources, so it
is kept abstract: lookups are parametrised by a flattened list of table rows
(`List PhonEntry`), iterated first-match-wins exactly like the nested
`for ... in PHON_DICT.items()` loops of the source.  The mutable
unknown-character ledger `PHON_UNK` (a Python `set`) is embedded by explicit
state passing of a duplicate-free accumulation list.
-/

namespace Phono

/-- Constituent kinds: the string constants `ONSET, NUCLEUS, CODA` of
`transcribe.py` line 22. -/
inductive Kind where
  | onset
  | nucleus
  | coda
deriving DecidableEq, Repr

/-- A syllable constituent: the tuples
`(component_type, component_phon, component_cv)` built by
`determine_syllable_components`. -/
abbrev Component := Kind × List Char × List Char

/-- One row of the flattened phonetic table `PHON_DICT`
(`dictionaries.load_phon`): CV category (a single character, `C` or `V`),
sonority rank, phonetic class label, and the letters of the row.  The nested
dictionary `{cv: {(rank, class): letters}}` is flattened into the list in
iteration order, so `List.find?` below is exactly the first-match-wins double
loop of `phon_to_cv` / `phon_to_rank`. -/
structure PhonEntry where
  cv : Char
  rank : Int
  cls : List Char
  letters : List Char
deriving DecidableEq, Repr

/-- The nested membership search shared by `phon_to_cv`, `phon_to_rank` and
`phon_to_class` (`transcribe.py` lines 107-110, 127-130): iterate the table
rows in order and return the first row whose letter set contains `char`. -/
def phonLookup (dict : List PhonEntry) (char : Char) : Option PhonEntry :=
  dict.find? (fun e => e.letters.contains char)

/-- `PHON_UNK.add(char)`: Python `set.add`, embedded on a duplicate-free
list. -/
def unkAdd (unk : List Char) (char : Char) : List Char :=
  if unk.contains char then unk else unk ++ [char]

/-- `phon_to_cv` (`transcribe.py` lines 98-114), with the ledger `PHON_UNK`
passed explicitly: returns the CV category of a known character, or the
character itself after recording it as unknown. -/
def phon_to_cv (dict : List PhonEntry) (unk : List Char) (char : Char) :
    Char × List Char :=
  match phonLookup dict char with
  | some e => (e.cv, unk)
  | none => (char, unkAdd unk char)

/-- `phon_to_rank` (`transcribe.py` lines 118-134), ledger passed
explicitly: sonority rank of a known character, `-1` after recording an
unknown one. -/
def phon_to_rank (dict : List PhonEntry) (unk : List Char) (char : Char) :
    Int × List Char :=
  match phonLookup dict char with
  | some e => (e.rank, unk)
  | none => (-1, unkAdd unk char)

/-- Value-only projection of `phon_to_cv`: the ledger insertion never
influences the returned category, so the syllabifier is phrased over this
pure view. -/
def phon_to_cv_pure (dict : List PhonEntry) (char : Char) : Char :=
  match phonLookup dict char with
  | some e => e.cv
  | none => char

/-- Value-only projection of `phon_to_rank`. -/
def phon_to_rank_pure (dict : List PhonEntry) (char : Char) : Int :=
  match phonLookup dict char with
  | some e => e.rank
  | none => -1

/-- `is_onset_legal` (`transcribe.py` lines 137-141), parametrised by the
rank lookup (the table is external data):
`all(abs(rank(chars[i]) - rank(chars[i+1])) > 1 for i in range(len(chars)-1))`.
Note `List.range (chars.length - 1)` is empty for length 0 and 1, exactly as
Python `range(-1)` and `range(0)`. -/
def is_onset_legal (rank : Char → Int) (chars : List Char) : Bool :=
  (List.range (chars.length - 1)).all fun i =>
    decide (1 < (rank (chars.getD i 'a') - rank (chars.getD (i + 1) 'a')).natAbs)

/-- The consonant-scanning loop of `determine_syllable_components`
(lines 160-163 for the initial onset and 190-193 for an intervocalic
cluster):
`while cv_form[current_char] != "V" and current_char < length: ...`.
Python evaluates `cv_form[current_char]` before the bound test, so reaching
`current_char = length` raises; that is the `none` of the first match arm.
Returns the scanned phonetic run, its CV run and the position of the vowel
that stopped the scan. -/
def scanNonV (chars cv : List Char) (i : Nat) :
    Option (List Char × List Char × Nat) :=
  match h : cv[i]? with
  | none => none
  | some c =>
    if c ≠ 'V' then
      match chars[i]? with
      | none => none
      | some p =>
        match scanNonV chars cv (i + 1) with
        | none => none
        | some (o, ocv, j) => some (p :: o, c :: ocv, j)
    else
      some ([], [], i)
termination_by cv.length - i
decreasing_by
  have : i < cv.length := by
    have := List.getElem?_eq_some_iff.mp h
    exact this.1
  omega

theorem scanNonV_le {chars cv : List Char} {i : Nat}
    {o ocv : List Char} {j : Nat}
    (h : scanNonV chars cv i = some (o, ocv, j)) : i ≤ j := by
  induction i using scanNonV.induct chars cv generalizing o ocv j with
  | case1 i hcv => rw [scanNonV, hcv] at h; exact absurd h (by simp)
  | case2 i c hcv hne hch => rw [scanNonV, hcv] at h; simp [hne, hch] at h
  | case3 i c hcv hne p hch hrec ih =>
    rw [scanNonV, hcv] at h; simp [hne, hch, hrec] at h
  | case4 i c hcv hne p hch o1 ocv1 j1 hrec ih =>
    rw [scanNonV, hcv] at h
    simp [hne, hch, hrec] at h
    obtain ⟨-, -, h3⟩ := h
    have := ih hrec
    omega
  | case5 i c hcv hV =>
    rw [scanNonV, hcv] at h
    simp only [hV, ite_false, ite_not, Option.some.injEq, Prod.mk.injEq] at h
    omega

theorem scanNonV_spec {chars cv : List Char} {i : Nat}
    {o ocv : List Char} {j : Nat}
    (h : scanNonV chars cv i = some (o, ocv, j)) :
    o ++ chars.drop j = chars.drop i ∧ ocv ++ cv.drop j = cv.drop i ∧
    cv[j]? = some 'V' ∧ o.length = j - i ∧ ocv.length = j - i ∧
    ∀ ch ∈ ocv, ch ≠ 'V' := by
  induction i using scanNonV.induct chars cv generalizing o ocv j with
  | case1 i hcv => rw [scanNonV, hcv] at h; exact absurd h (by simp)
  | case2 i c hcv hne hch => rw [scanNonV, hcv] at h; simp [hne, hch] at h
  | case3 i c hcv hne p hch hrec ih =>
    rw [scanNonV, hcv] at h; simp [hne, hch, hrec] at h
  | case4 i c hcv hne p hch o1 ocv1 j1 hrec ih =>
    rw [scanNonV, hcv] at h
    simp [hne, hch, hrec] at h
    obtain ⟨ho, hocv, hj⟩ := h
    subst ho hocv hj
    obtain ⟨ih1, ih2, ih3, ih4, ih5, ih6⟩ := ih hrec
    have hile := scanNonV_le hrec
    have hclt : i < chars.length := (List.getElem?_eq_some_iff.mp hch).1
    have hvlt : i < cv.length := (List.getElem?_eq_some_iff.mp hcv).1
    have hp : chars[i] = p := (List.getElem?_eq_some_iff.mp hch).2
    have hc : cv[i] = c := (List.getElem?_eq_some_iff.mp hcv).2
    refine ⟨?_, ?_, ih3, ?_, ?_, ?_⟩
    · rw [List.cons_append, ih1, List.drop_eq_getElem_cons hclt, hp]
    · rw [List.cons_append, ih2, List.drop_eq_getElem_cons hvlt, hc]
    · simp only [List.length_cons, ih4]; omega
    · simp only [List.length_cons, ih5]; omega
    · intro ch hch'
      rcases List.mem_cons.mp hch' with hpc | hpc
      · exact hpc ▸ hne
      · exact ih6 ch hpc
  | case5 i c hcv hV =>
    rw [scanNonV, hcv] at h
    simp only [hV, ite_false, ite_not, Option.some.injEq, Prod.mk.injEq] at h
    obtain ⟨ho, hocv, hj⟩ := h
    subst ho hocv hj
    have hc : c = 'V' := not_not.mp hV
    subst hc
    simp [hcv]

theorem scanNonV_isSome {chars cv : List Char} {i : Nat}
    (hlen : chars.length = cv.length) (hV : 'V' ∈ cv.drop i) :
    (scanNonV chars cv i).isSome := by
  induction i using scanNonV.induct chars cv with
  | case1 i hcv =>
    have hle : cv.length ≤ i := List.getElem?_eq_none_iff.mp hcv
    rw [List.drop_eq_nil_of_le hle] at hV
    simp at hV
  | case2 i c hcv hne hch =>
    have h1 : i < cv.length := (List.getElem?_eq_some_iff.mp hcv).1
    have h2 : chars.length ≤ i := List.getElem?_eq_none_iff.mp hch
    omega
  | case3 i c hcv hne p hch hrec ih =>
    have h1 : i < cv.length := (List.getElem?_eq_some_iff.mp hcv).1
    have hc : cv[i] = c := (List.getElem?_eq_some_iff.mp hcv).2
    have hv' : 'V' ∈ cv.drop (i + 1) := by
      rw [List.drop_eq_getElem_cons h1, hc] at hV
      rcases List.mem_cons.mp hV with hx | hx
      · exact absurd hx.symm hne
      · exact hx
    have := ih hv'
    rw [hrec] at this
    simp at this
  | case4 i c hcv hne p hch o1 ocv1 j1 hrec ih =>
    rw [scanNonV, hcv]; simp [hne, hch, hrec]
  | case5 i c hcv hV2 =>
    rw [scanNonV, hcv]; simp [hV2]

/-- The coda-transfer loop of `determine_syllable_components`
(lines 196-203): while the onset is illegal and non-empty, move its first
character (with its CV character) to the end of the coda.  The `none` arm is
the `IndexError` Python would raise on `onset_cv[0]` if the CV run were
shorter than the phonetic run (it never is on the calls the program makes). -/
def stripToLegal (rank : Char → Int) (coda coda_cv onset onset_cv : List Char) :
    Option (List Char × List Char × List Char × List Char) :=
  if ¬ is_onset_legal rank onset ∧ 0 < onset.length then
    match onset, onset_cv with
    | o :: orest, oc :: ocrest =>
      stripToLegal rank (coda ++ [o]) (coda_cv ++ [oc]) orest ocrest
    | _ :: _, [] => none
    | [], _ => some (coda, coda_cv, onset, onset_cv)
  else
    some (coda, coda_cv, onset, onset_cv)
termination_by onset.length

theorem is_onset_legal_nil (rank : Char → Int) :
    is_onset_legal rank [] = true := rfl

theorem stripToLegal_spec {rank : Char → Int}
    {coda coda_cv onset onset_cv c cc o oc : List Char}
    (h : stripToLegal rank coda coda_cv onset onset_cv = some (c, cc, o, oc)) :
    c ++ o = coda ++ onset ∧ cc ++ oc = coda_cv ++ onset_cv ∧
    is_onset_legal rank o = true ∧ o <:+ onset ∧
    (∀ s, s <:+ onset → o.length < s.length →
      is_onset_legal rank s = false) ∧
    c.length + o.length = coda.length + onset.length ∧
    cc.length + oc.length = coda_cv.length + onset_cv.length := by
  induction coda, coda_cv, onset, onset_cv using stripToLegal.induct rank
      generalizing c cc o oc with
  | case1 coda coda_cv o1 orest oc1 ocrest hguard ih =>
    rw [stripToLegal.eq_def, if_pos hguard] at h
    obtain ⟨ih1, ih2, ih3, ih4, ih5, ih6, ih7⟩ := ih h
    refine ⟨?_, ?_, ih3, ?_, ?_, ?_, ?_⟩
    · rw [ih1]; simp
    · rw [ih2]; simp
    · exact List.suffix_cons_iff.mpr (Or.inr ih4)
    · intro s hs hlen
      rcases List.suffix_cons_iff.mp hs with hx | hx
      · subst hx
        exact Bool.eq_false_iff.mpr hguard.1
      · exact ih5 s hx hlen
    · simp at ih6 ⊢; omega
    · simp at ih7 ⊢; omega
  | case2 coda coda_cv hd tl hguard =>
    rw [stripToLegal.eq_def, if_pos hguard] at h
    exact absurd h (by simp)
  | case3 coda coda_cv onset_cv hguard =>
    exact absurd hguard.2 (by simp)
  | case4 coda coda_cv onset onset_cv hn =>
    rw [stripToLegal.eq_def, if_neg hn] at h
    simp only [Option.some.injEq, Prod.mk.injEq] at h
    obtain ⟨h1, h2, h3, h4⟩ := h
    subst h1 h2 h3 h4
    have hleg : is_onset_legal rank onset = true := by
      rcases Decidable.not_and_iff_or_not.mp hn with hx | hx
      · exact not_not.mp hx
      · have hnil : onset = [] := List.length_eq_zero.mp (by omega)
        rw [hnil]
        exact is_onset_legal_nil rank
    refine ⟨rfl, rfl, hleg, List.suffix_refl onset, ?_, rfl, rfl⟩
    intro s hs hlen
    exact absurd (List.IsSuffix.length_le hs) (by omega)

theorem stripToLegal_isSome {rank : Char → Int}
    {coda coda_cv onset onset_cv : List Char}
    (hlen : onset.length = onset_cv.length) :
    (stripToLegal rank coda coda_cv onset onset_cv).isSome := by
  induction coda, coda_cv, onset, onset_cv using stripToLegal.induct rank with
  | case1 coda coda_cv o1 orest oc1 ocrest hguard ih =>
    rw [stripToLegal.eq_def, if_pos hguard]
    exact ih (by simpa using hlen)
  | case2 coda coda_cv hd tl hguard => simp at hlen
  | case3 coda coda_cv onset_cv hguard => exact absurd hguard.2 (by simp)
  | case4 coda coda_cv onset onset_cv hn =>
    rw [stripToLegal.eq_def, if_neg hn]
    rfl

/-- The main loop of `determine_syllable_components` (lines 167-206),
starting from position `i` (which the callers ensure carries a vowel):
emit a one-character nucleus, then either stop, emit a final coda, or scan
the next consonant cluster, split it with `stripToLegal`, emit the coda and
onset and continue after the cluster. -/
def mainLoop (rank : Char → Int) (chars cv : List Char) (i : Nat) :
    Option (List Component) :=
  if hlt : i < cv.length then
    match chars[i]? with
    | none => none
    | some nch =>
      let nucleus : Component := (Kind.nucleus, [nch], [cv.get ⟨i, hlt⟩])
      if cv.length ≤ i + 1 then
        some [nucleus]
      else if ¬ (cv.drop (i + 1)).contains 'V' then
        some [nucleus, (Kind.coda, chars.drop (i + 1), cv.drop (i + 1))]
      else
        match hscan : scanNonV chars cv (i + 1) with
        | none => none
        | some (cluster, cluster_cv, j) =>
          match stripToLegal rank [] [] cluster cluster_cv with
          | none => none
          | some (coda, coda_cv, onset, onset_cv) =>
            match mainLoop rank chars cv j with
            | none => none
            | some rest =>
              some (nucleus :: (Kind.coda, coda, coda_cv)
                    :: (Kind.onset, onset, onset_cv) :: rest)
  else
    some []
termination_by cv.length - i
decreasing_by
  have := scanNonV_le hscan
  omega

/-- Unfolding of `mainLoop` in the intervocalic-cluster branch, with the
cluster scan already resolved (the dependent match on `scanNonV` blocks
rewriting in place, so the reduction is proved once here). -/
theorem mainLoop_cluster_eq {rank : Char → Int} {chars cv : List Char}
    {i : Nat} (hlt : i < cv.length) {p : Char} (hch : chars[i]? = some p)
    (hend : ¬ cv.length ≤ i + 1) (hV : 'V' ∈ cv.drop (i + 1))
    {cluster cluster_cv : List Char} {j : Nat}
    (hscan : scanNonV chars cv (i + 1) = some (cluster, cluster_cv, j)) :
    mainLoop rank chars cv i =
      match stripToLegal rank [] [] cluster cluster_cv with
      | none => none
      | some (coda, coda_cv, onset, onset_cv) =>
        match mainLoop rank chars cv j with
        | none => none
        | some rest =>
          some ((Kind.nucleus, [p], [cv.get ⟨i, hlt⟩])
                :: (Kind.coda, coda, coda_cv)
                :: (Kind.onset, onset, onset_cv) :: rest) := by
  rw [mainLoop.eq_def]
  simp only [hlt, dite_true, hch, hend, ite_false, if_neg hend]
  have hVc : (cv.drop (i + 1)).contains 'V' = true := by
    simpa using hV
  rw [if_neg (not_not_intro hVc)]
  split
  next heq => rw [hscan] at heq; exact absurd heq (by simp)
  next a b c heq =>
    rw [hscan] at heq
    injection heq with heq
    injection heq with h1 heq
    injection heq with h2 h3
    subst h1 h2 h3
    rfl

/-- Unfolding of `mainLoop` when the cluster scan fails (only possible when
`chars` is shorter than `cv`). -/
theorem mainLoop_scanNone_eq {rank : Char → Int} {chars cv : List Char}
    {i : Nat} (hlt : i < cv.length) {p : Char} (hch : chars[i]? = some p)
    (hend : ¬ cv.length ≤ i + 1) (hV : 'V' ∈ cv.drop (i + 1))
    (hscan : scanNonV chars cv (i + 1) = none) :
    mainLoop rank chars cv i = none := by
  rw [mainLoop.eq_def]
  simp only [hlt, dite_true, hch, hend, ite_false, if_neg hend]
  have hVc : (cv.drop (i + 1)).contains 'V' = true := by
    simpa using hV
  rw [if_neg (not_not_intro hVc)]
  split
  next heq => rfl
  next a b c heq => rw [hscan] at heq; exact absurd heq (by simp)

/-- Shape of the constituent-kind sequence after the first onset and
nucleus: zero or more `coda, onset, nucleus` groups, optionally closed by a
single final coda. -/
def tailShape : List Kind → Bool
  | [] => true
  | [Kind.coda] => true
  | Kind.coda :: Kind.onset :: Kind.nucleus :: rest => tailShape rest
  | _ => false

/-- Shape of the kind sequence produced by the main loop: a nucleus followed
by a `tailShape` sequence. -/
def nucShape : List Kind → Bool
  | Kind.nucleus :: rest => tailShape rest
  | _ => false

/-- Shape of the full constituent-kind sequence: onset, nucleus, then zero
or more `coda, onset, nucleus` groups, optionally a single final coda. -/
def wholeShape : List Kind → Bool
  | Kind.onset :: rest => nucShape rest
  | _ => false

/-- Adjacent-constituent relation for the cluster-split property: whenever a
coda is immediately followed by an onset, that onset is legal and every
strictly longer suffix of the reassembled cluster `coda ++ onset` is
illegal. -/
def codaOnsetSplit (rank : Char → Int) (a b : Component) : Prop :=
  a.1 = Kind.coda → b.1 = Kind.onset →
    is_onset_legal rank b.2.1 = true ∧
    ∀ k, k < a.2.1.length →
      is_onset_legal rank ((a.2.1 ++ b.2.1).drop k) = false

theorem mainLoop_isSome {rank : Char → Int} {chars cv : List Char}
    (hlen : chars.length = cv.length) :
    ∀ {i : Nat}, (mainLoop rank chars cv i).isSome := by
  intro i
  induction i using mainLoop.induct rank chars cv with
  | case1 i hlt hch =>
    have : chars.length ≤ i := List.getElem?_eq_none_iff.mp hch
    omega
  | case2 i hlt p hch hend =>
    rw [mainLoop.eq_def]
    simp [hlt, hch, hend]
  | case3 i hlt p hch hend hnoV =>
    have hnoV' : 'V' ∉ cv.drop (i + 1) := by simpa using hnoV
    rw [mainLoop.eq_def]
    simp [hlt, hch, hend, hnoV']
  | case4 i hlt p hch hend hV hscan =>
    have hV' : 'V' ∈ cv.drop (i + 1) := by
      simpa using not_not.mp hV
    have := scanNonV_isSome hlen hV'
    rw [hscan] at this
    simp at this
  | case5 i hlt p hch hend hV cluster cluster_cv j hscan hstrip =>
    obtain ⟨-, -, -, hlc, hlcv, -⟩ := scanNonV_spec hscan
    have : (stripToLegal rank [] [] cluster cluster_cv).isSome :=
      stripToLegal_isSome (by omega)
    rw [hstrip] at this
    simp at this
  | case6 i hlt p hch hend hV cluster cluster_cv j hscan coda coda_cv onset
      onset_cv hstrip hrec ih =>
    rw [hrec] at ih
    simp at ih
  | case7 i hlt p hch hend hV cluster cluster_cv j hscan coda coda_cv onset
      onset_cv hstrip rest hrec ih =>
    have hV' : 'V' ∈ cv.drop (i + 1) := by simpa using not_not.mp hV
    rw [mainLoop_cluster_eq hlt hch hend hV' hscan]
    simp [hstrip, hrec]
  | case8 i hlt =>
    rw [mainLoop.eq_def]
    simp [hlt]

theorem mainLoop_flatten {rank : Char → Int} {chars cv : List Char}
    (hlen : chars.length = cv.length) :
    ∀ {i : Nat} {comps : List Component},
      mainLoop rank chars cv i = some comps →
      (comps.map (fun x => x.2.1)).flatten = chars.drop i ∧
      (comps.map (fun x => x.2.2)).flatten = cv.drop i := by
  intro i
  induction i using mainLoop.induct rank chars cv with
  | case1 i hlt hch =>
    intro comps h
    rw [mainLoop.eq_def] at h
    simp [hlt, hch] at h
  | case2 i hlt p hch hend =>
    intro comps h
    rw [mainLoop.eq_def] at h
    simp [hlt, hch, hend] at h
    subst h
    have hp : chars[i] = p := (List.getElem?_eq_some_iff.mp hch).2
    have hclt : i < chars.length := (List.getElem?_eq_some_iff.mp hch).1
    constructor
    · rw [List.drop_eq_getElem_cons hclt, hp,
        List.drop_eq_nil_of_le (by omega : chars.length ≤ i + 1)]
      simp
    · rw [List.drop_eq_getElem_cons hlt,
        List.drop_eq_nil_of_le (by omega : cv.length ≤ i + 1)]
      simp
  | case3 i hlt p hch hend hnoV =>
    intro comps h
    have hnoV' : 'V' ∉ cv.drop (i + 1) := by simpa using hnoV
    rw [mainLoop.eq_def] at h
    simp [hlt, hch, hend, hnoV'] at h
    subst h
    have hp : chars[i] = p := (List.getElem?_eq_some_iff.mp hch).2
    have hclt : i < chars.length := (List.getElem?_eq_some_iff.mp hch).1
    constructor
    · rw [List.drop_eq_getElem_cons hclt, hp]; simp
    · rw [List.drop_eq_getElem_cons hlt]; simp
  | case4 i hlt p hch hend hV hscan =>
    intro comps h
    have hV' : 'V' ∈ cv.drop (i + 1) := by simpa using not_not.mp hV
    rw [mainLoop_scanNone_eq hlt hch hend hV' hscan] at h
    exact absurd h (by simp)
  | case5 i hlt p hch hend hV cluster cluster_cv j hscan hstrip =>
    intro comps h
    have hV' : 'V' ∈ cv.drop (i + 1) := by simpa using not_not.mp hV
    rw [mainLoop_cluster_eq hlt hch hend hV' hscan] at h
    simp [hstrip] at h
  | case6 i hlt p hch hend hV cluster cluster_cv j hscan coda coda_cv onset
      onset_cv hstrip hrec ih =>
    intro comps h
    have hV' : 'V' ∈ cv.drop (i + 1) := by simpa using not_not.mp hV
    rw [mainLoop_cluster_eq hlt hch hend hV' hscan] at h
    simp [hstrip, hrec] at h
  | case7 i hlt p hch hend hV cluster cluster_cv j hscan coda coda_cv onset
      onset_cv hstrip rest hrec ih =>
    intro comps h
    have hV' : 'V' ∈ cv.drop (i + 1) := by simpa using not_not.mp hV
    rw [mainLoop_cluster_eq hlt hch hend hV' hscan] at h
    rw [hstrip, hrec] at h
    simp only [Option.some.injEq] at h
    subst h
    obtain ⟨ihp, ihc⟩ := ih hrec
    obtain ⟨hs1, hs2, -, -, -, -⟩ := scanNonV_spec hscan
    obtain ⟨ht1, ht2, -, -, -, -, -⟩ := stripToLegal_spec hstrip
    simp only [List.nil_append] at ht1 ht2
    have hp : chars[i] = p := (List.getElem?_eq_some_iff.mp hch).2
    have hclt : i < chars.length := (List.getElem?_eq_some_iff.mp hch).1
    have hc : cv[i] = cv.get ⟨i, hlt⟩ := rfl
    constructor
    · rw [List.drop_eq_getElem_cons hclt, hp]
      simp only [List.map_cons, List.flatten_cons, ihp, List.singleton_append,
        List.cons.injEq, true_and]
      rw [← hs1, ← ht1]
      simp [List.append_assoc]
    · rw [List.drop_eq_getElem_cons hlt]
      simp only [List.map_cons, List.flatten_cons, ihc, List.singleton_append,
        List.cons.injEq, true_and]
      rw [← hs2, ← ht2]
      simp [List.append_assoc]
  | case8 i hlt =>
    intro comps h
    rw [mainLoop.eq_def] at h
    simp [hlt] at h
    subst h
    have h1 : chars.length ≤ i := by omega
    have h2 : cv.length ≤ i := by omega
    simp [List.drop_eq_nil_of_le h1, List.drop_eq_nil_of_le h2]

theorem nucShape_iff {ks : List Kind} :
    nucShape ks = true ↔
      ∃ r, ks = Kind.nucleus :: r ∧ tailShape r = true := by
  cases ks with
  | nil => simp [nucShape]
  | cons k r => cases k <;> simp [nucShape]

theorem mainLoop_shape {rank : Char → Int} {chars cv : List Char} :
    ∀ {i : Nat} {comps : List Component},
      mainLoop rank chars cv i = some comps → i < cv.length →
      nucShape (comps.map Prod.fst) = true := by
  intro i
  induction i using mainLoop.induct rank chars cv with
  | case1 i hlt hch =>
    intro comps h _
    rw [mainLoop.eq_def] at h
    simp [hlt, hch] at h
  | case2 i hlt p hch hend =>
    intro comps h _
    rw [mainLoop.eq_def] at h
    simp [hlt, hch, hend] at h
    subst h
    simp [nucShape, tailShape]
  | case3 i hlt p hch hend hnoV =>
    intro comps h _
    have hnoV' : 'V' ∉ cv.drop (i + 1) := by simpa using hnoV
    rw [mainLoop.eq_def] at h
    simp [hlt, hch, hend, hnoV'] at h
    subst h
    simp [nucShape, tailShape]
  | case4 i hlt p hch hend hV hscan =>
    intro comps h _
    have hV' : 'V' ∈ cv.drop (i + 1) := by simpa using not_not.mp hV
    rw [mainLoop_scanNone_eq hlt hch hend hV' hscan] at h
    exact absurd h (by simp)
  | case5 i hlt p hch hend hV cluster cluster_cv j hscan hstrip =>
    intro comps h _
    have hV' : 'V' ∈ cv.drop (i + 1) := by simpa using not_not.mp hV
    rw [mainLoop_cluster_eq hlt hch hend hV' hscan] at h
    simp [hstrip] at h
  | case6 i hlt p hch hend hV cluster cluster_cv j hscan coda coda_cv onset
      onset_cv hstrip hrec ih =>
    intro comps h _
    have hV' : 'V' ∈ cv.drop (i + 1) := by simpa using not_not.mp hV
    rw [mainLoop_cluster_eq hlt hch hend hV' hscan] at h
    simp [hstrip, hrec] at h
  | case7 i hlt p hch hend hV cluster cluster_cv j hscan coda coda_cv onset
      onset_cv hstrip rest hrec ih =>
    intro comps h _
    have hV' : 'V' ∈ cv.drop (i + 1) := by simpa using not_not.mp hV
    rw [mainLoop_cluster_eq hlt hch hend hV' hscan] at h
    rw [hstrip, hrec] at h
    simp only [Option.some.injEq] at h
    subst h
    have hjV : cv[j]? = some 'V' := (scanNonV_spec hscan).2.2.1
    have hjlt : j < cv.length := (List.getElem?_eq_some_iff.mp hjV).1
    obtain ⟨r, hr, htr⟩ := nucShape_iff.mp (ih hrec hjlt)
    simp only [List.map_cons, hr]
    simp [nucShape, tailShape, htr]
  | case8 i hlt =>
    intro comps h hlt2
    omega

theorem mainLoop_onsets_legal {rank : Char → Int} {chars cv : List Char} :
    ∀ {i : Nat} {comps : List Component},
      mainLoop rank chars cv i = some comps →
      ∀ o ocv, (Kind.onset, o, ocv) ∈ comps →
        is_onset_legal rank o = true := by
  intro i
  induction i using mainLoop.induct rank chars cv with
  | case1 i hlt hch =>
    intro comps h
    rw [mainLoop.eq_def] at h
    simp [hlt, hch] at h
  | case2 i hlt p hch hend =>
    intro comps h
    rw [mainLoop.eq_def] at h
    simp [hlt, hch, hend] at h
    subst h
    intro o ocv hmem
    simp at hmem
  | case3 i hlt p hch hend hnoV =>
    intro comps h
    have hnoV' : 'V' ∉ cv.drop (i + 1) := by simpa using hnoV
    rw [mainLoop.eq_def] at h
    simp [hlt, hch, hend, hnoV'] at h
    subst h
    intro o ocv hmem
    simp at hmem
  | case4 i hlt p hch hend hV hscan =>
    intro comps h
    have hV' : 'V' ∈ cv.drop (i + 1) := by simpa using not_not.mp hV
    rw [mainLoop_scanNone_eq hlt hch hend hV' hscan] at h
    exact absurd h (by simp)
  | case5 i hlt p hch hend hV cluster cluster_cv j hscan hstrip =>
    intro comps h
    have hV' : 'V' ∈ cv.drop (i + 1) := by simpa using not_not.mp hV
    rw [mainLoop_cluster_eq hlt hch hend hV' hscan] at h
    simp [hstrip] at h
  | case6 i hlt p hch hend hV cluster cluster_cv j hscan coda coda_cv onset
      onset_cv hstrip hrec ih =>
    intro comps h
    have hV' : 'V' ∈ cv.drop (i + 1) := by simpa using not_not.mp hV
    rw [mainLoop_cluster_eq hlt hch hend hV' hscan] at h
    simp [hstrip, hrec] at h
  | case7 i hlt p hch hend hV cluster cluster_cv j hscan coda coda_cv onset
      onset_cv hstrip rest hrec ih =>
    intro comps h
    have hV' : 'V' ∈ cv.drop (i + 1) := by simpa using not_not.mp hV
    rw [mainLoop_cluster_eq hlt hch hend hV' hscan] at h
    rw [hstrip, hrec] at h
    simp only [Option.some.injEq] at h
    subst h
    intro o ocv hmem
    rcases List.mem_cons.mp hmem with hx | hmem
    · exact absurd hx (by simp)
    rcases List.mem_cons.mp hmem with hx | hmem
    · exact absurd hx (by simp)
    rcases List.mem_cons.mp hmem with hx | hmem
    · have heq : onset = o := by
        have := congrArg (fun t => t.2.1) hx
        simpa using this.symm
      rw [← heq]
      exact (stripToLegal_spec hstrip).2.2.1
    · exact ih hrec o ocv hmem
  | case8 i hlt =>
    intro comps h
    rw [mainLoop.eq_def] at h
    simp [hlt] at h
    subst h
    intro o ocv hmem
    simp at hmem

theorem codaOnsetSplit_of_not_coda {rank : Char → Int} {a b : Component}
    (h : a.1 ≠ Kind.coda) : codaOnsetSplit rank a b :=
  fun h1 _ => absurd h1 h

theorem mainLoop_chain {rank : Char → Int} {chars cv : List Char} :
    ∀ {i : Nat} {comps : List Component},
      mainLoop rank chars cv i = some comps →
      List.Chain' (codaOnsetSplit rank) comps := by
  intro i
  induction i using mainLoop.induct rank chars cv with
  | case1 i hlt hch =>
    intro comps h
    rw [mainLoop.eq_def] at h
    simp [hlt, hch] at h
  | case2 i hlt p hch hend =>
    intro comps h
    rw [mainLoop.eq_def] at h
    simp [hlt, hch, hend] at h
    subst h
    exact List.chain'_singleton _
  | case3 i hlt p hch hend hnoV =>
    intro comps h
    have hnoV' : 'V' ∉ cv.drop (i + 1) := by simpa using hnoV
    rw [mainLoop.eq_def] at h
    simp [hlt, hch, hend, hnoV'] at h
    subst h
    exact List.chain'_pair.mpr (codaOnsetSplit_of_not_coda (by simp))
  | case4 i hlt p hch hend hV hscan =>
    intro comps h
    have hV' : 'V' ∈ cv.drop (i + 1) := by simpa using not_not.mp hV
    rw [mainLoop_scanNone_eq hlt hch hend hV' hscan] at h
    exact absurd h (by simp)
  | case5 i hlt p hch hend hV cluster cluster_cv j hscan hstrip =>
    intro comps h
    have hV' : 'V' ∈ cv.drop (i + 1) := by simpa using not_not.mp hV
    rw [mainLoop_cluster_eq hlt hch hend hV' hscan] at h
    simp [hstrip] at h
  | case6 i hlt p hch hend hV cluster cluster_cv j hscan coda coda_cv onset
      onset_cv hstrip hrec ih =>
    intro comps h
    have hV' : 'V' ∈ cv.drop (i + 1) := by simpa using not_not.mp hV
    rw [mainLoop_cluster_eq hlt hch hend hV' hscan] at h
    simp [hstrip, hrec] at h
  | case7 i hlt p hch hend hV cluster cluster_cv j hscan coda coda_cv onset
      onset_cv hstrip rest hrec ih =>
    intro comps h
    have hV' : 'V' ∈ cv.drop (i + 1) := by simpa using not_not.mp hV
    rw [mainLoop_cluster_eq hlt hch hend hV' hscan] at h
    rw [hstrip, hrec] at h
    simp only [Option.some.injEq] at h
    subst h
    obtain ⟨ht1, ht2, ht3, -, ht5, ht6, -⟩ := stripToLegal_spec hstrip
    simp only [List.nil_append] at ht1 ht2 ht6
    refine List.chain'_cons.mpr ⟨codaOnsetSplit_of_not_coda (by simp), ?_⟩
    refine List.chain'_cons.mpr ⟨?_, ?_⟩
    · intro _ _
      refine ⟨ht3, ?_⟩
      intro k hk
      have hk' : k < coda.length := hk
      simp only
      rw [ht1]
      refine ht5 (cluster.drop k) (List.drop_suffix k cluster) ?_
      rw [List.length_drop]
      have hclen : coda.length + onset.length = cluster.length := by
        simpa using ht6
      omega
    · refine List.chain'_cons'.mpr ⟨?_, ih hrec⟩
      intro b _
      exact codaOnsetSplit_of_not_coda (by simp)
  | case8 i hlt =>
    intro comps h
    rw [mainLoop.eq_def] at h
    simp [hlt] at h
    subst h
    exact List.chain'_nil

theorem mainLoop_cvclass {rank : Char → Int} {chars cv : List Char} :
    ∀ {i : Nat} {comps : List Component},
      mainLoop rank chars cv i = some comps →
      (i < cv.length → cv[i]? = some 'V') →
      ∀ comp ∈ comps,
        (comp.1 = Kind.nucleus → comp.2.2 = ['V']) ∧
        (comp.1 ≠ Kind.nucleus → 'V' ∉ comp.2.2) := by
  intro i
  induction i using mainLoop.induct rank chars cv with
  | case1 i hlt hch =>
    intro comps h _
    rw [mainLoop.eq_def] at h
    simp [hlt, hch] at h
  | case2 i hlt p hch hend =>
    intro comps h hv
    rw [mainLoop.eq_def] at h
    simp [hlt, hch, hend] at h
    subst h
    have hvi : cv[i] = 'V' := (List.getElem?_eq_some_iff.mp (hv hlt)).2
    intro comp hmem
    simp at hmem
    subst hmem
    simp [hvi]
  | case3 i hlt p hch hend hnoV =>
    intro comps h hv
    have hnoV' : 'V' ∉ cv.drop (i + 1) := by simpa using hnoV
    rw [mainLoop.eq_def] at h
    simp [hlt, hch, hend, hnoV'] at h
    subst h
    have hvi : cv[i] = 'V' := (List.getElem?_eq_some_iff.mp (hv hlt)).2
    intro comp hmem
    rcases List.mem_cons.mp hmem with hx | hmem
    · subst hx; simp [hvi]
    · simp at hmem
      subst hmem
      refine ⟨by simp, fun _ => hnoV'⟩
  | case4 i hlt p hch hend hV hscan =>
    intro comps h _
    have hV' : 'V' ∈ cv.drop (i + 1) := by simpa using not_not.mp hV
    rw [mainLoop_scanNone_eq hlt hch hend hV' hscan] at h
    exact absurd h (by simp)
  | case5 i hlt p hch hend hV cluster cluster_cv j hscan hstrip =>
    intro comps h _
    have hV' : 'V' ∈ cv.drop (i + 1) := by simpa using not_not.mp hV
    rw [mainLoop_cluster_eq hlt hch hend hV' hscan] at h
    simp [hstrip] at h
  | case6 i hlt p hch hend hV cluster cluster_cv j hscan coda coda_cv onset
      onset_cv hstrip hrec ih =>
    intro comps h _
    have hV' : 'V' ∈ cv.drop (i + 1) := by simpa using not_not.mp hV
    rw [mainLoop_cluster_eq hlt hch hend hV' hscan] at h
    simp [hstrip, hrec] at h
  | case7 i hlt p hch hend hV cluster cluster_cv j hscan coda coda_cv onset
      onset_cv hstrip rest hrec ih =>
    intro comps h hv
    have hV' : 'V' ∈ cv.drop (i + 1) := by simpa using not_not.mp hV
    rw [mainLoop_cluster_eq hlt hch hend hV' hscan] at h
    rw [hstrip, hrec] at h
    simp only [Option.some.injEq] at h
    subst h
    have hvi : cv[i] = 'V' := (List.getElem?_eq_some_iff.mp (hv hlt)).2
    obtain ⟨-, hs2, hjV, -, -, hsV⟩ := scanNonV_spec hscan
    obtain ⟨-, ht2, -, -, -, -, -⟩ := stripToLegal_spec hstrip
    simp only [List.nil_append] at ht2
    have hcodaV : 'V' ∉ coda_cv := by
      intro hmem
      exact hsV 'V' (ht2 ▸ List.mem_append_left _ hmem) rfl
    have honsetV : 'V' ∉ onset_cv := by
      intro hmem
      exact hsV 'V' (ht2 ▸ List.mem_append_right _ hmem) rfl
    intro comp hmem
    rcases List.mem_cons.mp hmem with hx | hmem
    · subst hx; simp [hvi]
    rcases List.mem_cons.mp hmem with hx | hmem
    · subst hx
      exact ⟨by simp, fun _ => hcodaV⟩
    rcases List.mem_cons.mp hmem with hx | hmem
    · subst hx
      exact ⟨by simp, fun _ => honsetV⟩
    · exact ih hrec (fun _ => hjV) comp hmem
  | case8 i hlt =>
    intro comps h _
    rw [mainLoop.eq_def] at h
    simp [hlt] at h
    subst h
    intro comp hmem
    simp at hmem

/-- `determine_syllable_components` (`transcribe.py` lines 144-208):
scan the initial onset (everything before the first vowel), then run the
main loop from the first vowel. -/
def determine_syllable_components (rank : Char → Int) (chars cv : List Char) :
    Option (List Component) :=
  match scanNonV chars cv 0 with
  | none => none
  | some (onset, onset_cv, i) =>
    match mainLoop rank chars cv i with
    | none => none
    | some rest => some ((Kind.onset, onset, onset_cv) :: rest)

theorem determine_isSome {rank : Char → Int} {chars cv : List Char}
    (hlen : chars.length = cv.length) (hV : 'V' ∈ cv) :
    (determine_syllable_components rank chars cv).isSome := by
  rw [determine_syllable_components]
  have h0 : 'V' ∈ cv.drop 0 := by simpa using hV
  have hscan := scanNonV_isSome hlen h0
  match hs : scanNonV chars cv 0 with
  | none => rw [hs] at hscan; simp at hscan
  | some (o, ocv, i) =>
    have hml : (mainLoop rank chars cv i).isSome = true := mainLoop_isSome hlen
    match hm : mainLoop rank chars cv i with
    | none => rw [hm] at hml; simp at hml
    | some rest => simp [hm]

theorem determine_none {rank : Char → Int} {chars cv : List Char}
    (hnV : 'V' ∉ cv) :
    determine_syllable_components rank chars cv = none := by
  rw [determine_syllable_components]
  match hs : scanNonV chars cv 0 with
  | none => rfl
  | some (o, ocv, i) =>
    have hjV := (scanNonV_spec hs).2.2.1
    have : 'V' ∈ cv := by
      have hi : i < cv.length := (List.getElem?_eq_some_iff.mp hjV).1
      have := (List.getElem?_eq_some_iff.mp hjV).2
      exact this ▸ List.getElem_mem hi
    exact absurd this hnV

theorem determine_inv {rank : Char → Int} {chars cv : List Char}
    {comps : List Component}
    (h : determine_syllable_components rank chars cv = some comps) :
    ∃ o ocv i rest, scanNonV chars cv 0 = some (o, ocv, i) ∧
      mainLoop rank chars cv i = some rest ∧
      comps = (Kind.onset, o, ocv) :: rest := by
  rw [determine_syllable_components] at h
  split at h
  · exact absurd h (by simp)
  next o ocv i heq =>
    split at h
    · exact absurd h (by simp)
    next rest hm =>
      simp only [Option.some.injEq] at h
      exact ⟨o, ocv, i, rest, heq, hm, h.symm⟩

theorem determine_flatten {rank : Char → Int} {chars cv : List Char}
    {comps : List Component} (hlen : chars.length = cv.length)
    (h : determine_syllable_components rank chars cv = some comps) :
    (comps.map (fun x => x.2.1)).flatten = chars ∧
    (comps.map (fun x => x.2.2)).flatten = cv := by
  obtain ⟨o, ocv, i, rest, hs, hm, hc⟩ := determine_inv h
  subst hc
  obtain ⟨hs1, hs2, -, -, -, -⟩ := scanNonV_spec hs
  obtain ⟨hm1, hm2⟩ := mainLoop_flatten hlen hm
  constructor
  · simpa [hm1] using hs1
  · simpa [hm2] using hs2

theorem determine_shape {rank : Char → Int} {chars cv : List Char}
    {comps : List Component}
    (h : determine_syllable_components rank chars cv = some comps) :
    wholeShape (comps.map Prod.fst) = true := by
  obtain ⟨o, ocv, i, rest, hs, hm, hc⟩ := determine_inv h
  subst hc
  have hiV := (scanNonV_spec hs).2.2.1
  have hilt : i < cv.length := (List.getElem?_eq_some_iff.mp hiV).1
  have := mainLoop_shape hm hilt
  obtain ⟨r, hr, htr⟩ := nucShape_iff.mp this
  simp [wholeShape, nucShape, hr, htr]

theorem determine_chain {rank : Char → Int} {chars cv : List Char}
    {comps : List Component}
    (h : determine_syllable_components rank chars cv = some comps) :
    List.Chain' (codaOnsetSplit rank) comps := by
  obtain ⟨o, ocv, i, rest, hs, hm, hc⟩ := determine_inv h
  subst hc
  refine List.chain'_cons'.mpr ⟨?_, mainLoop_chain hm⟩
  intro b _
  exact codaOnsetSplit_of_not_coda (by simp)

theorem determine_cvclass {rank : Char → Int} {chars cv : List Char}
    {comps : List Component}
    (h : determine_syllable_components rank chars cv = some comps) :
    ∀ comp ∈ comps,
      (comp.1 = Kind.nucleus → comp.2.2 = ['V']) ∧
      (comp.1 ≠ Kind.nucleus → 'V' ∉ comp.2.2) := by
  obtain ⟨o, ocv, i, rest, hs, hm, hc⟩ := determine_inv h
  subst hc
  have hiV := (scanNonV_spec hs).2.2.1
  have hnoV := (scanNonV_spec hs).2.2.2.2.2
  intro comp hmem
  rcases List.mem_cons.mp hmem with hx | hmem
  · subst hx
    refine ⟨by simp, fun _ => ?_⟩
    intro hmem
    exact hnoV 'V' hmem rfl
  · exact mainLoop_cvclass hm (fun _ => hiV) comp hmem

/-- `"-".join` / `";".join` on a list of strings (Python `str.join`). -/
def joinSep (sep : Char) : List (List Char) → List Char
  | [] => []
  | [x] => x
  | x :: y :: rest => x ++ sep :: joinSep sep (y :: rest)

/-- The `syllables()` generator inside `concat_syllable_components`
(lines 215-236), with the accumulated current syllable and the
`previous_component` kind made explicit.  A new syllable is yielded before a
constituent of kind onset or nucleus that follows one of kind coda or
nucleus. -/
def syllablesAux (components : List Component)
    (syl_phon syl_cv : List Char) (previous : Option Kind) :
    List (List Char × List Char) :=
  match components with
  | [] => [(syl_phon, syl_cv)]
  | (k, p, c) :: rest =>
    if (k = Kind.onset ∨ k = Kind.nucleus) ∧
        (previous = some Kind.coda ∨ previous = some Kind.nucleus) then
      (syl_phon, syl_cv) :: syllablesAux rest p c (some k)
    else
      syllablesAux rest (syl_phon ++ p) (syl_cv ++ c) (some k)

/-- `concat_syllable_components` (lines 211-248): collect the syllables of
the generator and join them with `SYLLABLE_SEPARATOR = "-"`. -/
def concat_syllable_components (components : List Component) :
    List Char × List Char :=
  let syls := syllablesAux components [] [] none
  (joinSep '-' (syls.map Prod.fst), joinSep '-' (syls.map Prod.snd))

theorem syllablesAux_cons (k : Kind) (p c : List Char)
    (rest : List Component) (sp sc : List Char) (prev : Option Kind) :
    syllablesAux ((k, p, c) :: rest) sp sc prev =
      if (k = Kind.onset ∨ k = Kind.nucleus) ∧
          (prev = some Kind.coda ∨ prev = some Kind.nucleus)
      then (sp, sc) :: syllablesAux rest p c (some k)
      else syllablesAux rest (sp ++ p) (sc ++ c) (some k) := rfl

/-- Prepend accumulated content to the first syllable of a syllable list. -/
def prependFirst (sp sc : List Char) :
    List (List Char × List Char) → List (List Char × List Char)
  | [] => [(sp, sc)]
  | (p, c) :: rest => (sp ++ p, sc ++ c) :: rest

theorem prependFirst_comp (a b x y : List Char)
    (l : List (List Char × List Char)) :
    prependFirst a b (prependFirst x y l) =
      prependFirst (a ++ x) (b ++ y) l := by
  cases l with
  | nil => simp [prependFirst]
  | cons hd tl => cases hd; simp [prependFirst]

theorem syllablesAux_ne_nil (comps : List Component) (sp sc : List Char)
    (prev : Option Kind) : syllablesAux comps sp sc prev ≠ [] := by
  induction comps generalizing sp sc prev with
  | nil => simp [syllablesAux]
  | cons hd tl ih =>
    obtain ⟨k, p, c⟩ := hd
    rw [syllablesAux_cons]
    split
    · simp
    · exact ih _ _ _

theorem syllablesAux_prepend :
    ∀ (comps : List Component) (sp sc : List Char) (prev : Option Kind),
      syllablesAux comps sp sc prev =
        prependFirst sp sc (syllablesAux comps [] [] prev) := by
  intro comps
  induction comps with
  | nil => intro sp sc prev; simp [syllablesAux, prependFirst]
  | cons hd tl ih =>
    intro sp sc prev
    obtain ⟨k, p, c⟩ := hd
    rw [syllablesAux_cons, syllablesAux_cons]
    split
    · simp [prependFirst]
    · rw [ih (sp ++ p) (sc ++ c) (some k), ih ([] ++ p) ([] ++ c) (some k)]
      simp only [List.nil_append]
      rw [prependFirst_comp]

theorem syllablesAux_flatten :
    ∀ (comps : List Component) (sp sc : List Char) (prev : Option Kind),
      (((syllablesAux comps sp sc prev).map Prod.fst).flatten =
        sp ++ (comps.map (fun x => x.2.1)).flatten) ∧
      (((syllablesAux comps sp sc prev).map Prod.snd).flatten =
        sc ++ (comps.map (fun x => x.2.2)).flatten) := by
  intro comps
  induction comps with
  | nil => intro sp sc prev; simp [syllablesAux]
  | cons hd tl ih =>
    intro sp sc prev
    obtain ⟨k, p, c⟩ := hd
    rw [syllablesAux_cons]
    split
    · obtain ⟨ih1, ih2⟩ := ih p c (some k)
      simp [ih1, ih2]
    · obtain ⟨ih1, ih2⟩ := ih (sp ++ p) (sc ++ c) (some k)
      simp [ih1, ih2]

/-- Modelled from the spec (§4.4 boundary rule): a new syllable begins
whenever a constituent of kind Onset or Nucleus immediately follows a
constituent of kind Coda or Nucleus. -/
abbrev spec_newSyllableBefore (prev cur : Kind) : Prop :=
  (cur = Kind.onset ∨ cur = Kind.nucleus) ∧
  (prev = Kind.coda ∨ prev = Kind.nucleus)

/-- Modelled from the spec (§4.4): group the constituents into syllables,
starting a new syllable exactly before each constituent for which
`spec_newSyllableBefore` holds of the preceding one, never before the first
constituent; the empty sequence forms a single empty syllable. -/
def spec_syllables : List Component → List (List Component)
  | [] => [[]]
  | [comp] => [[comp]]
  | comp :: next :: rest =>
    match spec_syllables (next :: rest) with
    | g :: gs =>
      if spec_newSyllableBefore comp.1 next.1 then [comp] :: g :: gs
      else (comp :: g) :: gs
    | [] => [[comp]]

theorem spec_syllables_ne_nil :
    ∀ comps : List Component, spec_syllables comps ≠ [] := by
  intro comps
  match comps with
  | [] => simp [spec_syllables]
  | [comp] => simp [spec_syllables]
  | comp :: next :: rest =>
    rw [spec_syllables]
    split
    · split <;> simp
    · simp

/-- The phonetic and CV spelling of one spec-side syllable: the constituent
spellings concatenated in order. -/
def sylContent (g : List Component) : List Char × List Char :=
  ((g.map (fun x => x.2.1)).flatten, (g.map (fun x => x.2.2)).flatten)

theorem syllablesAux_eq_spec :
    ∀ comps : List Component,
      syllablesAux comps [] [] none =
        (spec_syllables comps).map sylContent := by
  intro comps
  induction comps with
  | nil => simp [syllablesAux, spec_syllables, sylContent]
  | cons hd tl ih =>
    obtain ⟨k, p, c⟩ := hd
    cases tl with
    | nil =>
      rw [syllablesAux_cons, if_neg (by simp)]
      simp [spec_syllables, syllablesAux, sylContent]
    | cons nd tl2 =>
      obtain ⟨k2, p2, c2⟩ := nd
      rw [syllablesAux_cons, if_neg (by simp)]
      simp only [List.nil_append]
      rw [syllablesAux_cons]
      obtain ⟨g, gs, hgg⟩ :=
        List.exists_cons_of_ne_nil (spec_syllables_ne_nil ((k2, p2, c2) :: tl2))
      by_cases hB : (k2 = Kind.onset ∨ k2 = Kind.nucleus) ∧
          (k = Kind.coda ∨ k = Kind.nucleus)
      · rw [if_pos (by simpa using hB)]
        have hrest : syllablesAux tl2 p2 c2 (some k2) =
            syllablesAux ((k2, p2, c2) :: tl2) [] [] none := by
          rw [syllablesAux_cons, if_neg (by simp)]
          simp
        rw [hrest, ih]
        rw [spec_syllables]
        simp only [hgg]
        rw [if_pos hB]
        simp [sylContent]
      · rw [if_neg (by simpa using hB)]
        have hstep : syllablesAux tl2 (p ++ p2) (c ++ c2) (some k2) =
            prependFirst p c (syllablesAux ((k2, p2, c2) :: tl2) [] [] none) := by
          rw [syllablesAux_cons, if_neg (by simp)]
          simp only [List.nil_append]
          rw [syllablesAux_prepend tl2 (p ++ p2) (c ++ c2) (some k2),
            syllablesAux_prepend tl2 p2 c2 (some k2), prependFirst_comp]
        rw [hstep, ih]
        rw [spec_syllables]
        simp only [hgg]
        rw [if_neg hB]
        simp [sylContent, prependFirst]

/-- Python `str.split(sep)` (always returns at least one part;
`"".split(sep) = [""]`). -/
def splitOnSep (sep : Char) : List Char → List (List Char)
  | [] => [[]]
  | c :: rest =>
    if c = sep then [] :: splitOnSep sep rest
    else
      match splitOnSep sep rest with
      | g :: gs => (c :: g) :: gs
      | [] => [[c]]

/-- The non-splitting path of `syllabify` (lines 280-290): recompute the CV
form when the hint is empty or length-mismatched, then segment and
assemble. -/
def syllabify1 (dict : List PhonEntry) (chars cv_form : List Char) :
    Option (List Char × List Char) :=
  let cv := if cv_form = [] ∨ cv_form.length ≠ chars.length
            then chars.map (phon_to_cv_pure dict) else cv_form
  match determine_syllable_components (phon_to_rank_pure dict) chars cv with
  | none => none
  | some comps => some (concat_syllable_components comps)

/-- The recursive per-part loop of `syllabify` (lines 271-275); each part of
the split contains no separator, so the recursive `syllabify(sub)` there
takes the non-splitting path, i.e. is `syllabify1` with an empty hint. -/
def syllabifyParts (dict : List PhonEntry) :
    List (List Char) → Option (List (List Char × List Char))
  | [] => some []
  | sub :: rest =>
    match syllabify1 dict sub [], syllabifyParts dict rest with
    | some r, some rs => some (r :: rs)
    | _, _ => none

/-- `syllabify` (`transcribe.py` lines 252-290): split on the alternate
separator `PHON_SEPARATOR = ";"` if present (discarding the CV hint),
syllabify each part and rejoin; otherwise run the single-word path. -/
def syllabify (dict : List PhonEntry) (chars cv_form : List Char) :
    Option (List Char × List Char) :=
  if chars.contains ';' then
    match syllabifyParts dict (splitOnSep ';' chars) with
    | none => none
    | some results =>
      some (joinSep ';' (results.map Prod.fst),
            joinSep ';' (results.map Prod.snd))
  else
    syllabify1 dict chars cv_form

theorem splitOnSep_no_sep {sep : Char} :
    ∀ {x : List Char}, sep ∉ x → splitOnSep sep x = [x] := by
  intro x
  induction x with
  | nil => intro _; rfl
  | cons a rest ih =>
    intro h
    have h1 : ¬ a = sep := by
      intro he
      subst he
      exact h (List.mem_cons_self _ _)
    have h2 : sep ∉ rest := fun he => h (List.mem_cons_of_mem a he)
    rw [splitOnSep, if_neg h1, ih h2]

theorem splitOnSep_append {sep : Char} :
    ∀ {x : List Char} (t : List Char), sep ∉ x →
      splitOnSep sep (x ++ sep :: t) = x :: splitOnSep sep t := by
  intro x
  induction x with
  | nil =>
    intro t _
    rw [List.nil_append, splitOnSep, if_pos rfl]
  | cons a rest ih =>
    intro t h
    have h1 : ¬ a = sep := by
      intro he
      subst he
      exact h (List.mem_cons_self _ _)
    have h2 : sep ∉ rest := fun he => h (List.mem_cons_of_mem a he)
    rw [List.cons_append, splitOnSep, if_neg h1, ih t h2]

theorem splitOnSep_joinSep {sep : Char} :
    ∀ {parts : List (List Char)}, parts ≠ [] →
      (∀ part ∈ parts, sep ∉ part) →
      splitOnSep sep (joinSep sep parts) = parts := by
  intro parts
  induction parts with
  | nil => intro h _; exact absurd rfl h
  | cons x tl ih =>
    intro _ hall
    cases tl with
    | nil =>
      rw [joinSep]
      exact splitOnSep_no_sep (hall x (by simp))
    | cons y r =>
      rw [joinSep, splitOnSep_append _ (hall x (by simp))]
      rw [ih (by simp) (fun part hp => hall part (List.mem_cons_of_mem x hp))]

theorem stripToLegal_lengths {rank : Char → Int}
    {coda coda_cv onset onset_cv c cc o oc : List Char}
    (h : stripToLegal rank coda coda_cv onset onset_cv = some (c, cc, o, oc))
    (h1 : onset.length = onset_cv.length)
    (h2 : coda.length = coda_cv.length) :
    c.length = cc.length ∧ o.length = oc.length := by
  induction coda, coda_cv, onset, onset_cv using stripToLegal.induct rank
      generalizing c cc o oc with
  | case1 coda coda_cv o1 orest oc1 ocrest hguard ih =>
    rw [stripToLegal.eq_def, if_pos hguard] at h
    exact ih h (by simpa using h1) (by simp [h2])
  | case2 coda coda_cv hd tl hguard => simp at h1
  | case3 coda coda_cv onset_cv hguard => exact absurd hguard.2 (by simp)
  | case4 coda coda_cv onset onset_cv hn =>
    rw [stripToLegal.eq_def, if_neg hn] at h
    simp only [Option.some.injEq, Prod.mk.injEq] at h
    obtain ⟨e1, e2, e3, e4⟩ := h
    subst e1 e2 e3 e4
    exact ⟨h2, h1⟩

theorem mainLoop_lengths {rank : Char → Int} {chars cv : List Char}
    (hlen : chars.length = cv.length) :
    ∀ {i : Nat} {comps : List Component},
      mainLoop rank chars cv i = some comps →
      ∀ comp ∈ comps, comp.2.1.length = comp.2.2.length := by
  intro i
  induction i using mainLoop.induct rank chars cv with
  | case1 i hlt hch =>
    intro comps h
    rw [mainLoop.eq_def] at h
    simp [hlt, hch] at h
  | case2 i hlt p hch hend =>
    intro comps h
    rw [mainLoop.eq_def] at h
    simp [hlt, hch, hend] at h
    subst h
    intro comp hmem
    simp at hmem
    subst hmem
    simp
  | case3 i hlt p hch hend hnoV =>
    intro comps h
    have hnoV' : 'V' ∉ cv.drop (i + 1) := by simpa using hnoV
    rw [mainLoop.eq_def] at h
    simp [hlt, hch, hend, hnoV'] at h
    subst h
    intro comp hmem
    rcases List.mem_cons.mp hmem with hx | hmem
    · subst hx; simp
    · simp at hmem
      subst hmem
      simp [hlen]
  | case4 i hlt p hch hend hV hscan =>
    intro comps h
    have hV' : 'V' ∈ cv.drop (i + 1) := by simpa using not_not.mp hV
    rw [mainLoop_scanNone_eq hlt hch hend hV' hscan] at h
    exact absurd h (by simp)
  | case5 i hlt p hch hend hV cluster cluster_cv j hscan hstrip =>
    intro comps h
    have hV' : 'V' ∈ cv.drop (i + 1) := by simpa using not_not.mp hV
    rw [mainLoop_cluster_eq hlt hch hend hV' hscan] at h
    simp [hstrip] at h
  | case6 i hlt p hch hend hV cluster cluster_cv j hscan coda coda_cv onset
      onset_cv hstrip hrec ih =>
    intro comps h
    have hV' : 'V' ∈ cv.drop (i + 1) := by simpa using not_not.mp hV
    rw [mainLoop_cluster_eq hlt hch hend hV' hscan] at h
    simp [hstrip, hrec] at h
  | case7 i hlt p hch hend hV cluster cluster_cv j hscan coda coda_cv onset
      onset_cv hstrip rest hrec ih =>
    intro comps h
    have hV' : 'V' ∈ cv.drop (i + 1) := by simpa using not_not.mp hV
    rw [mainLoop_cluster_eq hlt hch hend hV' hscan] at h
    rw [hstrip, hrec] at h
    simp only [Option.some.injEq] at h
    subst h
    obtain ⟨-, -, -, hc4, hc5, -⟩ := scanNonV_spec hscan
    obtain ⟨hl1, hl2⟩ := stripToLegal_lengths hstrip (by omega) rfl
    intro comp hmem
    rcases List.mem_cons.mp hmem with hx | hmem
    · subst hx; simp
    rcases List.mem_cons.mp hmem with hx | hmem
    · subst hx; exact hl1
    rcases List.mem_cons.mp hmem with hx | hmem
    · subst hx; exact hl2
    · exact ih hrec comp hmem
  | case8 i hlt =>
    intro comps h
    rw [mainLoop.eq_def] at h
    simp [hlt] at h
    subst h
    intro comp hmem
    simp at hmem

theorem determine_lengths {rank : Char → Int} {chars cv : List Char}
    {comps : List Component} (hlen : chars.length = cv.length)
    (h : determine_syllable_components rank chars cv = some comps) :
    ∀ comp ∈ comps, comp.2.1.length = comp.2.2.length := by
  obtain ⟨o, ocv, i, rest, hs, hm, hc⟩ := determine_inv h
  subst hc
  obtain ⟨-, -, -, hs4, hs5, -⟩ := scanNonV_spec hs
  intro comp hmem
  rcases List.mem_cons.mp hmem with hx | hmem
  · subst hx; simp; omega
  · exact mainLoop_lengths hlen hm comp hmem

theorem syllablesAux_wf :
    ∀ (n : Nat) (rest : List Component) (sp sc : List Char),
      rest.length ≤ n →
      tailShape (rest.map Prod.fst) = true →
      (∀ comp ∈ rest,
        (comp.1 = Kind.nucleus → comp.2.2 = ['V']) ∧
        (comp.1 ≠ Kind.nucleus → 'V' ∉ comp.2.2)) →
      (∀ comp ∈ rest, comp.2.1.length = comp.2.2.length) →
      sp ≠ [] → sc.count 'V' = 1 →
      ∀ pr ∈ syllablesAux rest sp sc (some Kind.nucleus),
        pr.1 ≠ [] ∧ pr.2.count 'V' = 1 := by
  intro n
  induction n with
  | zero =>
    intro rest sp sc hle htail hgood hlens hsp hsc pr hpr
    have hnil : rest = [] := List.length_eq_zero.mp (by omega)
    subst hnil
    simp [syllablesAux] at hpr
    subst hpr
    exact ⟨hsp, hsc⟩
  | succ n ih =>
    intro rest sp sc hle htail hgood hlens hsp hsc pr hpr
    cases rest with
    | nil =>
      simp [syllablesAux] at hpr
      subst hpr
      exact ⟨hsp, hsc⟩
    | cons e1 rest1 =>
      obtain ⟨k1, p1, c1⟩ := e1
      cases k1 with
      | onset => simp [tailShape] at htail
      | nucleus => simp [tailShape] at htail
      | coda =>
        have hc1V : 'V' ∉ c1 :=
          (hgood (Kind.coda, p1, c1) (by simp)).2 (by simp)
        cases rest1 with
        | nil =>
          rw [syllablesAux_cons, if_neg (by simp)] at hpr
          simp [syllablesAux] at hpr
          subst hpr
          refine ⟨by simp [hsp], ?_⟩
          simp [List.count_append, hsc, List.count_eq_zero.mpr hc1V]
        | cons e2 rest2 =>
          obtain ⟨k2, p2, c2⟩ := e2
          cases k2 with
          | nucleus => simp [tailShape] at htail
          | coda => simp [tailShape] at htail
          | onset =>
            cases rest2 with
            | nil => simp [tailShape] at htail
            | cons e3 rest3 =>
              obtain ⟨k3, p3, c3⟩ := e3
              cases k3 with
              | onset => simp [tailShape] at htail
              | coda => simp [tailShape] at htail
              | nucleus =>
                have htail3 : tailShape (rest3.map Prod.fst) = true := by
                  simpa [tailShape] using htail
                rw [syllablesAux_cons, if_neg (by simp)] at hpr
                rw [syllablesAux_cons, if_pos (by simp)] at hpr
                rw [syllablesAux_cons, if_neg (by simp)] at hpr
                have hc2V : 'V' ∉ c2 :=
                  (hgood (Kind.onset, p2, c2) (by simp)).2 (by simp)
                have hc3V : c3 = ['V'] :=
                  (hgood (Kind.nucleus, p3, c3) (by simp)).1 rfl
                have hp3 : p3 ≠ [] := by
                  have := hlens (Kind.nucleus, p3, c3) (by simp)
                  simp only [hc3V] at this
                  exact List.ne_nil_of_length_pos (by simp at this; omega)
                rcases List.mem_cons.mp hpr with hx | hpr
                · subst hx
                  refine ⟨by simp [hsp], ?_⟩
                  simp [List.count_append, hsc, List.count_eq_zero.mpr hc1V]
                · refine ih rest3 (p2 ++ p3) (c2 ++ c3) (by simp at hle ⊢; omega)
                    htail3
                    (fun comp hm => hgood comp (by simp [hm]))
                    (fun comp hm => hlens comp (by simp [hm]))
                    (by simp [hp3]) ?_ pr hpr
                  simp [List.count_append, hc3V,
                    List.count_eq_zero.mpr hc2V]

theorem determine_syllables_wf {rank : Char → Int} {chars cv : List Char}
    {comps : List Component} (hlen : chars.length = cv.length)
    (h : determine_syllable_components rank chars cv = some comps) :
    ∀ pr ∈ syllablesAux comps [] [] none,
      pr.1 ≠ [] ∧ pr.2.count 'V' = 1 := by
  have hshape := determine_shape h
  have hgood := determine_cvclass h
  have hlens := determine_lengths hlen h
  match comps, hshape with
  | [], hshape => simp [wholeShape] at hshape
  | [(k1, o, ocv)], hshape =>
    cases k1 <;> simp [wholeShape, nucShape] at hshape
  | (k1, o, ocv) :: (k2, np, ncv) :: rest, hshape =>
    have hk1 : k1 = Kind.onset := by
      cases k1 <;> simp [wholeShape] at hshape ⊢
    subst hk1
    have hk2 : k2 = Kind.nucleus := by
      cases k2 <;> simp [wholeShape, nucShape] at hshape ⊢
    subst hk2
    have htail : tailShape (rest.map Prod.fst) = true := by
      simpa [wholeShape, nucShape] using hshape
    have hocv : 'V' ∉ ocv :=
      (hgood (Kind.onset, o, ocv) (by simp)).2 (by simp)
    have hncv : ncv = ['V'] :=
      (hgood (Kind.nucleus, np, ncv) (by simp)).1 rfl
    have hnp : np ≠ [] := by
      have := hlens (Kind.nucleus, np, ncv) (by simp)
      simp only [hncv] at this
      exact List.ne_nil_of_length_pos (by simp at this; omega)
    intro pr hpr
    rw [syllablesAux_cons, if_neg (by simp)] at hpr
    rw [syllablesAux_cons, if_neg (by simp)] at hpr
    refine syllablesAux_wf rest.length rest (([] ++ o) ++ np)
      (([] ++ ocv) ++ ncv) le_rfl htail
      (fun comp hm => hgood comp (by simp [hm]))
      (fun comp hm => hlens comp (by simp [hm]))
      (by simp [hnp]) ?_ pr hpr
    simp [List.count_append, hncv, List.count_eq_zero.mpr hocv]

theorem filter_joinSep {sep : Char} :
    ∀ parts : List (List Char), (∀ part ∈ parts, sep ∉ part) →
      (joinSep sep parts).filter (fun ch => ch ≠ sep) = parts.flatten := by
  intro parts
  induction parts with
  | nil => intro _; rfl
  | cons x tl ih =>
    intro hall
    have hx : sep ∉ x := hall x (by simp)
    have hfx : x.filter (fun ch => ch ≠ sep) = x := by
      rw [List.filter_eq_self]
      intro ch hch
      simp only [ne_eq, decide_eq_true_eq]
      intro he
      exact hx (he ▸ hch)
    cases tl with
    | nil => simpa [joinSep] using hfx
    | cons y r =>
      rw [joinSep, List.filter_append]
      rw [hfx]
      have : List.filter (fun ch => ch ≠ sep) (sep :: joinSep sep (y :: r)) =
          List.filter (fun ch => ch ≠ sep) (joinSep sep (y :: r)) := by
        simp [List.filter_cons]
      rw [this, ih (fun part hp => hall part (List.mem_cons_of_mem x hp))]
      simp

/-- No two adjacent constituents are both codas, and none are both
onsets. -/
def noTwoConsecKinds (a b : Kind) : Prop :=
  ¬(a = Kind.coda ∧ b = Kind.coda) ∧ ¬(a = Kind.onset ∧ b = Kind.onset)

theorem tailShape_noTwoConsec :
    ∀ (n : Nat) (ks : List Kind), ks.length ≤ n → tailShape ks = true →
      List.Chain' noTwoConsecKinds (Kind.nucleus :: ks) := by
  intro n
  induction n with
  | zero =>
    intro ks hle _
    have : ks = [] := List.length_eq_zero.mp (by omega)
    subst this
    exact List.chain'_singleton _
  | succ n ih =>
    intro ks hle htail
    match ks with
    | [] => exact List.chain'_singleton _
    | [Kind.coda] =>
      exact List.chain'_pair.mpr (by simp [noTwoConsecKinds])
    | [Kind.onset] => simp [tailShape] at htail
    | [Kind.nucleus] => simp [tailShape] at htail
    | Kind.coda :: Kind.onset :: Kind.nucleus :: r =>
      have h1 : tailShape r = true := by simpa [tailShape] using htail
      refine List.chain'_cons.mpr ⟨by simp [noTwoConsecKinds], ?_⟩
      refine List.chain'_cons.mpr ⟨by simp [noTwoConsecKinds], ?_⟩
      refine List.chain'_cons.mpr ⟨by simp [noTwoConsecKinds], ?_⟩
      exact ih r (by simp at hle; omega) h1
    | Kind.coda :: Kind.onset :: Kind.onset :: r => simp [tailShape] at htail
    | Kind.coda :: Kind.onset :: Kind.coda :: r => simp [tailShape] at htail
    | Kind.coda :: Kind.nucleus :: r => simp [tailShape] at htail
    | Kind.coda :: Kind.coda :: r => simp [tailShape] at htail
    | Kind.onset :: x :: r => simp [tailShape] at htail
    | Kind.nucleus :: x :: r => simp [tailShape] at htail

theorem wholeShape_noTwoConsec {ks : List Kind} (h : wholeShape ks = true) :
    List.Chain' noTwoConsecKinds ks := by
  match ks with
  | [] => exact List.chain'_nil
  | Kind.onset :: rest =>
    match rest with
    | [] => simp [wholeShape, nucShape] at h
    | Kind.nucleus :: r =>
      have htail : tailShape r = true := by
        simpa [wholeShape, nucShape] using h
      refine List.chain'_cons.mpr ⟨by simp [noTwoConsecKinds], ?_⟩
      exact tailShape_noTwoConsec r.length r le_rfl htail
    | Kind.onset :: r => simp [wholeShape, nucShape] at h
    | Kind.coda :: r => simp [wholeShape, nucShape] at h
  | Kind.nucleus :: rest => simp [wholeShape] at h
  | Kind.coda :: rest => simp [wholeShape] at h

/-- Modelled from the spec: the sonority table `letters_phon.csv` that
populates `PHON_DICT` is external configuration, not part of the sources.
This is a small representative table in the format of §3 (CV category,
sonority rank, phonetic class, letters), used only to instantiate theorems
at concrete inputs. -/
def demoDict : List PhonEntry :=
  [ ⟨'V', 5, ['v', 'o', 'w'], ['a', 'e', 'i', 'o', 'u']⟩,
    ⟨'C', 0, ['s', 't', 'o'], ['p', 't', 'k', 'b', 'd', 'g']⟩,
    ⟨'C', 1, ['f', 'r', 'i'], ['f', 's', 'z', 'v']⟩,
    ⟨'C', 2, ['n', 'a', 's'], ['m', 'n']⟩,
    ⟨'C', 3, ['l', 'i', 'q'], ['l', 'r']⟩ ]

/-- `n` successive lookups of the same character, each threading the ledger
returned by the previous one (the ledger side effect of `phon_to_cv`). -/
def lookupN (dict : List PhonEntry) (char : Char) (unk : List Char) :
    Nat → List Char
  | 0 => unk
  | n + 1 => lookupN dict char (phon_to_cv dict unk char).2 n

theorem phon_to_cv_ledger_stable {dict : List PhonEntry} {unk : List Char}
    {char : Char} (h : char ∈ unk) :
    (phon_to_cv dict unk char).2 = unk := by
  rw [phon_to_cv]
  split
  · rfl
  · simp only
    rw [unkAdd, if_pos (by simpa using h)]

theorem lookupN_stable {dict : List PhonEntry} {char : Char} :
    ∀ (n : Nat) {unk : List Char}, char ∈ unk →
      lookupN dict char unk n = unk := by
  intro n
  induction n with
  | zero => intro unk _; rfl
  | succ n ih =>
    intro unk h
    rw [lookupN, phon_to_cv_ledger_stable h]
    exact ih h

/-- C8: `is_onset_legal(chars)` returns true iff every pair of adjacent
characters has sonority ranks (per the rank lookup) whose absolute
difference is strictly greater than 1 (equivalently at least 2), and in
particular it returns true for every string of length 0 or 1. -/
theorem claim_C8 (rank : Char → Int) (chars : List Char) :
    (is_onset_legal rank chars = true ↔
      ∀ i : Nat, i + 1 < chars.length →
        1 < (rank (chars.getD i 'a') - rank (chars.getD (i + 1) 'a')).natAbs) ∧
    (chars.length ≤ 1 → is_onset_legal rank chars = true) := by
  constructor
  · rw [is_onset_legal, List.all_eq_true]
    constructor
    · intro h i hi
      have := h i (List.mem_range.mpr (by omega))
      simpa using this
    · intro h x hx
      have hx' := List.mem_range.mp hx
      simp only [decide_eq_true_eq]
      exact h x (by omega)
  · intro hlen
    rw [is_onset_legal]
    have h0 : chars.length - 1 = 0 := by omega
    rw [h0]
    rfl

/-- Witness for C8 at a concrete input: a one-character candidate onset is
legal. -/
theorem claim_C8_witness :
    is_onset_legal (phon_to_rank_pure demoDict) ['t'] = true :=
  (claim_C8 (phon_to_rank_pure demoDict) ['t']).2 (by decide)

/-- C9: looking up a character absent from every table row returns the
character itself from `phon_to_cv`, the sentinel `-1` from `phon_to_rank`,
and inserts the character into the unknown-character ledger, which then
contains it exactly once no matter how many times it is looked up; a
character present in the table is never added to the ledger. -/
theorem claim_C9 (dict : List PhonEntry) (unk : List Char) (char : Char)
    (n : Nat) :
    (phonLookup dict char = none →
      (phon_to_cv dict unk char).1 = char ∧
      (phon_to_rank dict unk char).1 = -1 ∧
      char ∈ (phon_to_cv dict unk char).2 ∧
      (char ∉ unk → 1 ≤ n →
        (lookupN dict char unk n).count char = 1)) ∧
    (∀ e, phonLookup dict char = some e →
      (phon_to_cv dict unk char).2 = unk ∧
      (phon_to_rank dict unk char).2 = unk) := by
  constructor
  · intro hnone
    refine ⟨?_, ?_, ?_, ?_⟩
    · simp [phon_to_cv, hnone]
    · simp [phon_to_rank, hnone]
    · simp only [phon_to_cv, hnone]
      rw [unkAdd]
      split
      · next hc => simpa using hc
      · simp
    · intro hnotin hn
      match n, hn with
      | m + 1, _ =>
        rw [lookupN]
        have hstep : (phon_to_cv dict unk char).2 = unk ++ [char] := by
          simp only [phon_to_cv, hnone]
          rw [unkAdd, if_neg (by simpa using hnotin)]
        rw [hstep, lookupN_stable m (by simp)]
        simp [List.count_append, List.count_eq_zero.mpr hnotin]
  · intro e hsome
    constructor
    · simp [phon_to_cv, hsome]
    · simp [phon_to_rank, hsome]

/-- Witness for C9 at a concrete input: the character `x` is outside the
demo table; it passes through `phon_to_cv`, ranks `-1`, and after three
lookups the ledger holds it exactly once. -/
theorem claim_C9_witness :
    (phon_to_cv demoDict [] 'x').1 = 'x' ∧
    (phon_to_rank demoDict [] 'x').1 = -1 ∧
    (lookupN demoDict 'x' [] 3).count 'x' = 1 := by
  have h := (claim_C9 demoDict [] 'x' 3).1 (by decide)
  exact ⟨h.1, h.2.1, h.2.2.2 (by decide) (by decide)⟩

/-- C5: on a length-matched input whose CV form contains a vowel, every
index evaluated inside `determine_syllable_components` is in bounds and the
function returns normally (`isSome`); when the CV form contains no `V` (in
particular the empty string, and hence `syllabify("")` after CV
recomputation) the loop guard's index read is out of bounds, because
`cv_form[current_char] != "V"` is evaluated before `current_char < length`
— modelled as the `none` result. -/
theorem claim_C5 (rank : Char → Int) (dict : List PhonEntry)
    (chars cv : List Char) :
    (chars.length = cv.length → 'V' ∈ cv →
      (determine_syllable_components rank chars cv).isSome = true) ∧
    ('V' ∉ cv → determine_syllable_components rank chars cv = none) ∧
    determine_syllable_components rank [] [] = none ∧
    syllabify dict [] [] = none := by
  refine ⟨fun h1 h2 => determine_isSome h1 h2, fun h => determine_none h,
    determine_none (by simp), ?_⟩
  rw [syllabify, if_neg (by simp)]
  simp [syllabify1, determine_none]

/-- Witness for C5 at concrete inputs: a well-formed one-syllable input
succeeds, an all-consonant CV form fails. -/
theorem claim_C5_witness :
    (determine_syllable_components (phon_to_rank_pure demoDict)
      ['t', 'a'] ['C', 'V']).isSome = true ∧
    determine_syllable_components (phon_to_rank_pure demoDict)
      ['t'] ['C'] = none :=
  ⟨(claim_C5 (phon_to_rank_pure demoDict) demoDict ['t', 'a']
      ['C', 'V']).1 rfl (by decide),
   (claim_C5 (phon_to_rank_pure demoDict) demoDict ['t'] ['C']).2.1
      (by decide)⟩

theorem scanNonV_stop {chars cv : List Char} {i : Nat}
    (h : cv[i]? = some 'V') : scanNonV chars cv i = some ([], [], i) := by
  rw [scanNonV, h]
  simp

theorem scanNonV_consume {chars cv : List Char} {i : Nat} {c p : Char}
    (hcv : cv[i]? = some c) (hne : c ≠ 'V') (hch : chars[i]? = some p) :
    scanNonV chars cv i =
      match scanNonV chars cv (i + 1) with
      | none => none
      | some (o, ocv, j) => some (p :: o, c :: ocv, j) := by
  rw [scanNonV, hcv]
  simp [hne, hch]

theorem stripToLegal_stop {rank : Char → Int}
    {coda coda_cv onset onset_cv : List Char}
    (h : is_onset_legal rank onset = true) :
    stripToLegal rank coda coda_cv onset onset_cv =
      some (coda, coda_cv, onset, onset_cv) := by
  rw [stripToLegal.eq_def, if_neg (by simp [h])]

theorem stripToLegal_step {rank : Char → Int}
    {coda coda_cv orest ocrest : List Char} {o1 oc1 : Char}
    (h : is_onset_legal rank (o1 :: orest) = false) :
    stripToLegal rank coda coda_cv (o1 :: orest) (oc1 :: ocrest) =
      stripToLegal rank (coda ++ [o1]) (coda_cv ++ [oc1]) orest ocrest := by
  rw [stripToLegal.eq_def, if_pos (by simp [h])]

theorem mainLoop_last {rank : Char → Int} {chars cv : List Char} {i : Nat}
    {p : Char} (hlt : i < cv.length) (hch : chars[i]? = some p)
    (hend : cv.length ≤ i + 1) :
    mainLoop rank chars cv i =
      some [(Kind.nucleus, [p], [cv.get ⟨i, hlt⟩])] := by
  rw [mainLoop.eq_def]
  simp [hlt, hch, hend]

theorem mainLoop_final_coda {rank : Char → Int} {chars cv : List Char}
    {i : Nat} {p : Char} (hlt : i < cv.length) (hch : chars[i]? = some p)
    (hend : ¬ cv.length ≤ i + 1) (hnoV : 'V' ∉ cv.drop (i + 1)) :
    mainLoop rank chars cv i =
      some [(Kind.nucleus, [p], [cv.get ⟨i, hlt⟩]),
            (Kind.coda, chars.drop (i + 1), cv.drop (i + 1))] := by
  rw [mainLoop.eq_def]
  simp [hlt, hch, hend, hnoV]

theorem mainLoop_cluster_result {rank : Char → Int} {chars cv : List Char}
    {i : Nat} {p : Char} (hlt : i < cv.length) (hch : chars[i]? = some p)
    (hend : ¬ cv.length ≤ i + 1) (hV : 'V' ∈ cv.drop (i + 1))
    {cluster cluster_cv : List Char} {j : Nat}
    (hscan : scanNonV chars cv (i + 1) = some (cluster, cluster_cv, j))
    {coda coda_cv onset onset_cv : List Char}
    (hstrip : stripToLegal rank [] [] cluster cluster_cv =
      some (coda, coda_cv, onset, onset_cv))
    {rest : List Component} (hrec : mainLoop rank chars cv j = some rest) :
    mainLoop rank chars cv i =
      some ((Kind.nucleus, [p], [cv.get ⟨i, hlt⟩])
            :: (Kind.coda, coda, coda_cv)
            :: (Kind.onset, onset, onset_cv) :: rest) := by
  rw [mainLoop_cluster_eq hlt hch hend hV hscan, hstrip, hrec]

theorem determine_result {rank : Char → Int} {chars cv : List Char}
    {o ocv : List Char} {i : Nat} {comps : List Component}
    (hs : scanNonV chars cv 0 = some (o, ocv, i))
    (hm : mainLoop rank chars cv i = some comps) :
    determine_syllable_components rank chars cv =
      some ((Kind.onset, o, ocv) :: comps) := by
  rw [determine_syllable_components, hs]
  change (match mainLoop rank chars cv i with
    | none => none
    | some rest => some ((Kind.onset, o, ocv) :: rest)) = _
  rw [hm]

/-- Concrete run used by several instantiations: the constituents of
`"asta"` with CV form `"VCCV"` under the demo table. -/
theorem demo_eval_asta :
    determine_syllable_components (phon_to_rank_pure demoDict)
        ['a', 's', 't', 'a'] ['V', 'C', 'C', 'V'] =
      some [(Kind.onset, [], []), (Kind.nucleus, ['a'], ['V']),
            (Kind.coda, ['s'], ['C']), (Kind.onset, ['t'], ['C']),
            (Kind.nucleus, ['a'], ['V'])] := by
  have s3 : scanNonV ['a', 's', 't', 'a'] ['V', 'C', 'C', 'V'] 3 =
      some ([], [], 3) := scanNonV_stop rfl
  have s2 : scanNonV ['a', 's', 't', 'a'] ['V', 'C', 'C', 'V'] 2 =
      some (['t'], ['C'], 3) := by
    rw [scanNonV_consume rfl (by decide) rfl, s3]
    decide
  have s1 : scanNonV ['a', 's', 't', 'a'] ['V', 'C', 'C', 'V'] 1 =
      some (['s', 't'], ['C', 'C'], 3) := by
    rw [scanNonV_consume rfl (by decide) rfl, s2]
    decide
  have s0 : scanNonV ['a', 's', 't', 'a'] ['V', 'C', 'C', 'V'] 0 =
      some ([], [], 0) := scanNonV_stop rfl
  have t0 : stripToLegal (phon_to_rank_pure demoDict) [] []
      ['s', 't'] ['C', 'C'] = some (['s'], ['C'], ['t'], ['C']) := by
    rw [stripToLegal_step (by decide), stripToLegal_stop (by decide)]
    decide
  have m3 : mainLoop (phon_to_rank_pure demoDict)
      ['a', 's', 't', 'a'] ['V', 'C', 'C', 'V'] 3 =
      some [(Kind.nucleus, ['a'], ['V'])] :=
    mainLoop_last (by decide) rfl (by decide)
  have m0 : mainLoop (phon_to_rank_pure demoDict)
      ['a', 's', 't', 'a'] ['V', 'C', 'C', 'V'] 0 =
      some [(Kind.nucleus, ['a'], ['V']), (Kind.coda, ['s'], ['C']),
            (Kind.onset, ['t'], ['C']), (Kind.nucleus, ['a'], ['V'])] :=
    mainLoop_cluster_result (by decide) rfl (by decide) (by decide)
      s1 t0 m3
  exact determine_result s0 m0

/-- Counterexample to C1: on the valid input `phon = "sta"`,
`cv = "CCV"` (lengths equal, one vowel), the word-initial onset `"st"` has
length 2, is emitted by `determine_syllable_components`, and violates the
sonority-distance rule: `s` and `t` have adjacent ranks in the demo table,
and the initial-onset scan performs no legality check. -/
theorem claim_C1_counterexample :
    determine_syllable_components (phon_to_rank_pure demoDict)
        ['s', 't', 'a'] ['C', 'C', 'V'] =
      some [(Kind.onset, ['s', 't'], ['C', 'C']),
            (Kind.nucleus, ['a'], ['V'])] ∧
    is_onset_legal (phon_to_rank_pure demoDict) ['s', 't'] = false := by
  have s2 : scanNonV ['s', 't', 'a'] ['C', 'C', 'V'] 2 =
      some ([], [], 2) := scanNonV_stop rfl
  have s1 : scanNonV ['s', 't', 'a'] ['C', 'C', 'V'] 1 =
      some (['t'], ['C'], 2) := by
    rw [scanNonV_consume rfl (by decide) rfl, s2]
    decide
  have s0 : scanNonV ['s', 't', 'a'] ['C', 'C', 'V'] 0 =
      some (['s', 't'], ['C', 'C'], 2) := by
    rw [scanNonV_consume rfl (by decide) rfl, s1]
    decide
  have m2 : mainLoop (phon_to_rank_pure demoDict)
      ['s', 't', 'a'] ['C', 'C', 'V'] 2 =
      some [(Kind.nucleus, ['a'], ['V'])] :=
    mainLoop_last (by decide) rfl (by decide)
  exact ⟨determine_result s0 m2, rfl⟩

/-- C1 (amended): every Onset constituent emitted by
`determine_syllable_components` other than the word-initial one satisfies
`is_onset_legal`; the word-initial Onset is emitted without a legality
check and may violate the rule. -/
theorem claim_C1_amended (rank : Char → Int) (chars cv : List Char)
    (c0 : Component) (rest : List Component) :
    chars.length = cv.length → 'V' ∈ cv →
    determine_syllable_components rank chars cv = some (c0 :: rest) →
    ∀ o ocv, (Kind.onset, o, ocv) ∈ rest →
      is_onset_legal rank o = true := by
  intro _ _ h o ocv hmem
  obtain ⟨o0, ocv0, i, rest0, hs, hm, hc⟩ := determine_inv h
  have hrest : rest = rest0 := by
    have := hc
    injection this with h1 h2
  subst hrest
  exact mainLoop_onsets_legal hm o ocv hmem

/-- Witness for the amended C1 at a concrete input: in `"asta"` / `"VCCV"`
the non-initial onset `"t"` produced at the cluster split is legal. -/
theorem claim_C1_witness :
    is_onset_legal (phon_to_rank_pure demoDict) ['t'] = true :=
  claim_C1_amended (phon_to_rank_pure demoDict)
    ['a', 's', 't', 'a'] ['V', 'C', 'C', 'V']
    (Kind.onset, [], [])
    [(Kind.nucleus, ['a'], ['V']), (Kind.coda, ['s'], ['C']),
     (Kind.onset, ['t'], ['C']), (Kind.nucleus, ['a'], ['V'])]
    rfl (by decide) demo_eval_asta ['t'] ['C'] (by decide)

/-- C3: the coda-transfer loop splits each intervocalic cluster exactly:
starting from an empty coda, the returned coda and onset concatenate back
to the scanned cluster (phonetic and CV sides alike), the returned onset is
legal, and every strictly longer suffix of the cluster is illegal (so the
onset is the longest legal suffix, the whole cluster when legal, empty when
no non-empty suffix is legal); consequently in the emitted constituent
sequence every Coda immediately followed by an Onset satisfies this
property of `coda ++ onset`. -/
theorem claim_C3 (rank : Char → Int) :
    (∀ u ucv c cc o oc : List Char,
      stripToLegal rank [] [] u ucv = some (c, cc, o, oc) →
        c ++ o = u ∧ cc ++ oc = ucv ∧
        is_onset_legal rank o = true ∧
        ∀ k, k < c.length → is_onset_legal rank (u.drop k) = false) ∧
    (∀ chars cv comps,
      determine_syllable_components rank chars cv = some comps →
        List.Chain' (codaOnsetSplit rank) comps) := by
  constructor
  · intro u ucv c cc o oc h
    obtain ⟨h1, h2, h3, h4, h5, h6, h7⟩ := stripToLegal_spec h
    simp only [List.nil_append] at h1 h2
    simp only [List.length_nil, Nat.zero_add] at h6
    refine ⟨h1, h2, h3, ?_⟩
    intro k hk
    refine h5 (u.drop k) (List.drop_suffix k u) ?_
    rw [List.length_drop]
    omega
  · intro chars cv comps h
    exact determine_chain h

/-- Witness for C3 at a concrete input: the cluster `"rst"` splits into
coda `"rs"` and onset `"t"`, which reassemble to the cluster, and the
two-character suffix `"st"` (strictly longer than the onset) is illegal. -/
theorem claim_C3_witness :
    ['r', 's'] ++ ['t'] = ['r', 's', 't'] ∧
    is_onset_legal (phon_to_rank_pure demoDict) ['t'] = true ∧
    is_onset_legal (phon_to_rank_pure demoDict)
      (['r', 's', 't'].drop 1) = false := by
  have ht : stripToLegal (phon_to_rank_pure demoDict) [] []
      ['r', 's', 't'] ['C', 'C', 'C'] =
      some (['r', 's'], ['C', 'C'], ['t'], ['C']) := by
    rw [stripToLegal_step (by decide), stripToLegal_step (by decide),
      stripToLegal_stop (by decide)]
    decide
  have h := (claim_C3 (phon_to_rank_pure demoDict)).1
    ['r', 's', 't'] ['C', 'C', 'C'] ['r', 's'] ['C', 'C'] ['t'] ['C'] ht
  exact ⟨h.1, h.2.2.1, h.2.2.2 1 (by decide)⟩

/-- C7: on valid input the constituent sequence always matches the pattern
Onset, Nucleus, (Coda, Onset, Nucleus)*, optionally ending in a single
final Coda; hence no two consecutive constituents are both Coda and none
are both Onset. -/
theorem claim_C7 (rank : Char → Int) (chars cv : List Char)
    (comps : List Component) :
    chars.length = cv.length → 'V' ∈ cv →
    determine_syllable_components rank chars cv = some comps →
    wholeShape (comps.map Prod.fst) = true ∧
    List.Chain' noTwoConsecKinds (comps.map Prod.fst) := by
  intro _ _ h
  have hshape := determine_shape h
  exact ⟨hshape, wholeShape_noTwoConsec hshape⟩

/-- Witness for C7 at a concrete input: the kind sequence of the
constituents of `"asta"` / `"VCCV"` has the required shape. -/
theorem claim_C7_witness :
    wholeShape [Kind.onset, Kind.nucleus, Kind.coda, Kind.onset,
      Kind.nucleus] = true ∧
    List.Chain' noTwoConsecKinds [Kind.onset, Kind.nucleus, Kind.coda,
      Kind.onset, Kind.nucleus] := by
  have h := claim_C7 (phon_to_rank_pure demoDict)
    ['a', 's', 't', 'a'] ['V', 'C', 'C', 'V']
    [(Kind.onset, [], []), (Kind.nucleus, ['a'], ['V']),
     (Kind.coda, ['s'], ['C']), (Kind.onset, ['t'], ['C']),
     (Kind.nucleus, ['a'], ['V'])]
    rfl (by decide) demo_eval_asta
  simpa using h

/-- C4: for every constituent sequence, `concat_syllable_components` equals
the spec-side assembler: group the constituents into syllables that start
exactly at each Onset/Nucleus constituent immediately following a
Coda/Nucleus constituent (never before the first constituent), concatenate
the spellings within each syllable in order, and join the syllables with
the separator `-`, identically on the phonetic and the CV side. -/
theorem claim_C4 (comps : List Component) :
    concat_syllable_components comps =
      (joinSep '-' ((spec_syllables comps).map (fun g => (sylContent g).1)),
       joinSep '-' ((spec_syllables comps).map (fun g => (sylContent g).2))) := by
  rw [concat_syllable_components]
  simp only [syllablesAux_eq_spec]
  simp [List.map_map, Function.comp_def]

/-- C6: a phonetic argument containing the alternate separator `;` is split
on it, each part syllabified independently with the CV hint discarded, and
the results rejoined with `;`; in particular
`syllabify (a ++ ";" ++ b)` is the pair of `;`-joins of `syllabify a` and
`syllabify b`, for `;`-free `a` and `b`. -/
theorem claim_C6 (dict : List PhonEntry) (a b cv_hint pa ca pb cb : List Char) :
    ';' ∉ a → ';' ∉ b →
    syllabify dict a [] = some (pa, ca) →
    syllabify dict b [] = some (pb, cb) →
    syllabify dict (a ++ ';' :: b) cv_hint =
      some (pa ++ ';' :: pb, ca ++ ';' :: cb) := by
  intro ha hb hsa hsb
  have hamem : ';' ∈ a ++ ';' :: b :=
    List.mem_append_right _ (List.mem_cons_self _ _)
  rw [syllabify, if_pos (by simpa using hamem)]
  rw [splitOnSep_append _ ha, splitOnSep_no_sep hb]
  have ha1 : syllabify1 dict a [] = some (pa, ca) := by
    rw [syllabify, if_neg (by simpa using ha)] at hsa
    exact hsa
  have hb1 : syllabify1 dict b [] = some (pb, cb) := by
    rw [syllabify, if_neg (by simpa using hb)] at hsb
    exact hsb
  simp [syllabifyParts, ha1, hb1, joinSep]

/-- Witness for C6 at a concrete input: `"a;o"` syllabifies to the
`;`-join of the syllabifications of `"a"` and `"o"`. -/
theorem claim_C6_witness :
    syllabify demoDict ['a', ';', 'o'] [] =
      some (['a', ';', 'o'], ['V', ';', 'V']) := by
  have hdeta : determine_syllable_components (phon_to_rank_pure demoDict)
      ['a'] ['V'] =
      some [(Kind.onset, [], []), (Kind.nucleus, ['a'], ['V'])] :=
    determine_result (scanNonV_stop rfl)
      (mainLoop_last (by decide) rfl (by decide))
  have hdeto : determine_syllable_components (phon_to_rank_pure demoDict)
      ['o'] ['V'] =
      some [(Kind.onset, [], []), (Kind.nucleus, ['o'], ['V'])] :=
    determine_result (scanNonV_stop rfl)
      (mainLoop_last (by decide) rfl (by decide))
  have hcva : phon_to_cv_pure demoDict 'a' = 'V' := rfl
  have hsa : syllabify demoDict ['a'] [] = some (['a'], ['V']) := by
    rw [syllabify, if_neg (by decide)]
    simp [syllabify1, hcva, hdeta, concat_syllable_components, syllablesAux,
      joinSep]
  have hcvo : phon_to_cv_pure demoDict 'o' = 'V' := rfl
  have hso : syllabify demoDict ['o'] [] = some (['o'], ['V']) := by
    rw [syllabify, if_neg (by decide)]
    simp [syllabify1, hcvo, hdeto, concat_syllable_components, syllablesAux,
      joinSep]
  exact claim_C6 demoDict ['a'] ['o'] [] ['a'] ['V'] ['o'] ['V']
    (by decide) (by decide) hsa hso

/-- Shared concrete run: the constituents of `"ta"` with CV form `"CV"`
under the demo table. -/
theorem demo_eval_ta_det :
    determine_syllable_components (phon_to_rank_pure demoDict)
        ['t', 'a'] ['C', 'V'] =
      some [(Kind.onset, ['t'], ['C']), (Kind.nucleus, ['a'], ['V'])] := by
  have s1 : scanNonV ['t', 'a'] ['C', 'V'] 1 = some ([], [], 1) :=
    scanNonV_stop rfl
  have s0 : scanNonV ['t', 'a'] ['C', 'V'] 0 = some (['t'], ['C'], 1) := by
    rw [scanNonV_consume rfl (by decide) rfl, s1]
    decide
  exact determine_result s0 (mainLoop_last (by decide) rfl (by decide))

/-- Shared concrete run: `syllabify` of `"ta"` with CV hint `"CV"`. -/
theorem demo_eval_ta :
    syllabify demoDict ['t', 'a'] ['C', 'V'] =
      some (['t', 'a'], ['C', 'V']) := by
  rw [syllabify, if_neg (by decide)]
  simp [syllabify1, demo_eval_ta_det, concat_syllable_components,
    syllablesAux, joinSep]

/-- Shared concrete run: `syllabify` of `"a-"` with CV hint `"VC"`; the
character `-` is here an ordinary (unknown) phonetic character, and the
input is valid per the length and vowel conditions. -/
theorem demo_eval_adash :
    syllabify demoDict ['a', '-'] ['V', 'C'] =
      some (['a', '-'], ['V', 'C']) := by
  have hdet : determine_syllable_components (phon_to_rank_pure demoDict)
      ['a', '-'] ['V', 'C'] =
      some [(Kind.onset, [], []), (Kind.nucleus, ['a'], ['V']),
            (Kind.coda, ['-'], ['C'])] :=
    determine_result (scanNonV_stop rfl)
      (mainLoop_final_coda (by decide) rfl (by decide) (by decide))
  rw [syllabify, if_neg (by decide)]
  simp [syllabify1, hdet, concat_syllable_components, syllablesAux, joinSep]

/-- Shared concrete run: `syllabify1` of `"a"` with an empty CV hint. -/
theorem demo_eval_a1 :
    syllabify1 demoDict ['a'] [] = some (['a'], ['V']) := by
  have hdet : determine_syllable_components (phon_to_rank_pure demoDict)
      ['a'] ['V'] =
      some [(Kind.onset, [], []), (Kind.nucleus, ['a'], ['V'])] :=
    determine_result (scanNonV_stop rfl)
      (mainLoop_last (by decide) rfl (by decide))
  have hcva : phon_to_cv_pure demoDict 'a' = 'V' := rfl
  simp [syllabify1, hcva, hdet, concat_syllable_components, syllablesAux,
    joinSep]

/-- Shared concrete run: `syllabify1` of `"o"` with an empty CV hint. -/
theorem demo_eval_o1 :
    syllabify1 demoDict ['o'] [] = some (['o'], ['V']) := by
  have hdet : determine_syllable_components (phon_to_rank_pure demoDict)
      ['o'] ['V'] =
      some [(Kind.onset, [], []), (Kind.nucleus, ['o'], ['V'])] :=
    determine_result (scanNonV_stop rfl)
      (mainLoop_last (by decide) rfl (by decide))
  have hcvo : phon_to_cv_pure demoDict 'o' = 'V' := rfl
  simp [syllabify1, hcvo, hdet, concat_syllable_components, syllablesAux,
    joinSep]

/-- Shared concrete run: `syllabify` of `"a;o"` with the CV hint `"VCV"`:
the `;`-split path discards the hint, recomputes each part's CV form, and
returns the CV output `"V;V"`. -/
theorem demo_eval_asemio :
    syllabify demoDict ['a', ';', 'o'] ['V', 'C', 'V'] =
      some (['a', ';', 'o'], ['V', ';', 'V']) := by
  rw [syllabify, if_pos (by decide)]
  have hsplit : splitOnSep ';' ['a', ';', 'o'] = [['a'], ['o']] := by decide
  rw [hsplit]
  simp [syllabifyParts, demo_eval_a1, demo_eval_o1, joinSep]

/-- Counterexample to C2's equivalence clause, at two valid inputs (equal
lengths, at least one `V`).  First, `phon = "a-"`, `cv = "VC"`: the
syllabified output is `"a-"`, and deleting every `-` character from it
yields `"a"`, which does not restore the input.  Second,
`phon = "a;o"`, `cv = "VCV"` (no `-` anywhere): the `;`-split path of
`syllabify` discards the CV hint, the CV output is `"V;V"`, and deleting
every `-` from it leaves `"V;V"`, which does not restore `"VCV"`. -/
theorem claim_C2_counterexample :
    (syllabify demoDict ['a', '-'] ['V', 'C'] =
        some (['a', '-'], ['V', 'C']) ∧
      List.filter (fun ch => ch ≠ '-') ['a', '-'] ≠ ['a', '-']) ∧
    (syllabify demoDict ['a', ';', 'o'] ['V', 'C', 'V'] =
        some (['a', ';', 'o'], ['V', ';', 'V']) ∧
      List.filter (fun ch => ch ≠ '-') ['V', ';', 'V'] ≠ ['V', 'C', 'V']) :=
  ⟨⟨demo_eval_adash, by decide⟩, ⟨demo_eval_asemio, by decide⟩⟩

/-- C2 (amended): concatenating the constituent phonetic spellings of
`determine_syllable_components` restores `phon` exactly, and the CV
spellings restore `cv` (unconditionally, given matching lengths); the
equivalent formulation through `syllabify` — deleting every `-` from the
output restores the input — additionally requires that `;` not occur in
`phon` (on the `;`-split path the CV hint is discarded and recomputed, so
the given `cv` is not restored) and that `-` occur in neither `phon` nor
`cv`, since `-` in the input is indistinguishable from the inserted
separators. -/
theorem claim_C2_amended (rank : Char → Int) (dict : List PhonEntry)
    (chars cv : List Char) :
    (∀ comps, chars.length = cv.length →
      determine_syllable_components rank chars cv = some comps →
      (comps.map (fun x => x.2.1)).flatten = chars ∧
      (comps.map (fun x => x.2.2)).flatten = cv) ∧
    (∀ p c, ';' ∉ chars → '-' ∉ chars → '-' ∉ cv →
      chars.length = cv.length → 'V' ∈ cv →
      syllabify dict chars cv = some (p, c) →
      p.filter (fun ch => ch ≠ '-') = chars ∧
      c.filter (fun ch => ch ≠ '-') = cv) := by
  constructor
  · intro comps hlen h
    exact determine_flatten hlen h
  · intro p c hsemi hdp hdc hlen hV hsyl
    rw [syllabify, if_neg (by simpa using hsemi)] at hsyl
    have hcvne : cv ≠ [] := List.ne_nil_of_mem hV
    simp only [syllabify1] at hsyl
    rw [if_neg (by push_neg; exact ⟨hcvne, by omega⟩)] at hsyl
    split at hsyl
    · exact absurd hsyl (by simp)
    next comps hdet =>
      simp only [Option.some.injEq] at hsyl
      rw [concat_syllable_components] at hsyl
      have hp : joinSep '-' ((syllablesAux comps [] [] none).map Prod.fst)
          = p := congrArg Prod.fst hsyl
      have hc : joinSep '-' ((syllablesAux comps [] [] none).map Prod.snd)
          = c := congrArg Prod.snd hsyl
      have hfl := determine_flatten hlen hdet
      have haux := syllablesAux_flatten comps [] [] none
      have hflp : ((syllablesAux comps [] [] none).map Prod.fst).flatten
          = chars := by
        rw [haux.1]
        simpa using hfl.1
      have hflc : ((syllablesAux comps [] [] none).map Prod.snd).flatten
          = cv := by
        rw [haux.2]
        simpa using hfl.2
      have hnp : ∀ part ∈ (syllablesAux comps [] [] none).map Prod.fst,
          '-' ∉ part := by
        intro part hpart hmem
        exact hdp (hflp ▸ List.mem_flatten.mpr ⟨part, hpart, hmem⟩)
      have hnc : ∀ part ∈ (syllablesAux comps [] [] none).map Prod.snd,
          '-' ∉ part := by
        intro part hpart hmem
        exact hdc (hflc ▸ List.mem_flatten.mpr ⟨part, hpart, hmem⟩)
      exact ⟨by rw [← hp, filter_joinSep _ hnp, hflp],
             by rw [← hc, filter_joinSep _ hnc, hflc]⟩

/-- Witness for the amended C2 at a concrete input: deleting `-` from the
syllabified `"ta"` restores `"ta"` and `"CV"`. -/
theorem claim_C2_witness :
    List.filter (fun ch => ch ≠ '-') ['t', 'a'] = ['t', 'a'] ∧
    List.filter (fun ch => ch ≠ '-') ['C', 'V'] = ['C', 'V'] :=
  (claim_C2_amended (phon_to_rank_pure demoDict) demoDict
    ['t', 'a'] ['C', 'V']).2 ['t', 'a'] ['C', 'V']
    (by decide) (by decide) (by decide) rfl (by decide) demo_eval_ta

/-- Counterexample to C10: on the valid input `phon = "o-"`, `cv = "VC"`
(lengths equal, one vowel), the assembled phonetic string is `"o-"`, which
ends with the separator character `-`. -/
theorem claim_C10_counterexample :
    determine_syllable_components (phon_to_rank_pure demoDict)
        ['o', '-'] ['V', 'C'] =
      some [(Kind.onset, [], []), (Kind.nucleus, ['o'], ['V']),
            (Kind.coda, ['-'], ['C'])] ∧
    concat_syllable_components
        [(Kind.onset, [], []), (Kind.nucleus, ['o'], ['V']),
         (Kind.coda, ['-'], ['C'])] = (['o', '-'], ['V', 'C']) ∧
    (['o', '-'] : List Char).getLast? = some '-' :=
  ⟨determine_result (scanNonV_stop rfl)
      (mainLoop_final_coda (by decide) rfl (by decide) (by decide)),
   by decide, by decide⟩

/-- C10 (amended): provided `-` occurs in neither `phon` nor `cv`, the
strings assembled from the constituents contain no empty syllable — every
part of the output split on `-` is non-empty (equivalently the output
neither begins nor ends with a separator and has no two adjacent ones) and
every CV syllable between separators contains exactly one `V`; this covers
leading-vowel words (empty initial onset) and trailing-cluster words
(final coda), whose zero-length constituents contribute no spelling but
still drive the boundary transitions. -/
theorem claim_C10_amended (rank : Char → Int) (chars cv : List Char)
    (comps : List Component) (p c : List Char) :
    chars.length = cv.length → 'V' ∈ cv → '-' ∉ chars → '-' ∉ cv →
    determine_syllable_components rank chars cv = some comps →
    concat_syllable_components comps = (p, c) →
    (∀ s ∈ splitOnSep '-' p, s ≠ []) ∧
    (∀ s ∈ splitOnSep '-' c, s.count 'V' = 1) := by
  intro hlen hV hdp hdc hdet hcc
  rw [concat_syllable_components] at hcc
  have hp : joinSep '-' ((syllablesAux comps [] [] none).map Prod.fst) = p :=
    congrArg Prod.fst hcc
  have hc : joinSep '-' ((syllablesAux comps [] [] none).map Prod.snd) = c :=
    congrArg Prod.snd hcc
  have hwf := determine_syllables_wf hlen hdet
  have hfl := determine_flatten hlen hdet
  have haux := syllablesAux_flatten comps [] [] none
  have hflp : ((syllablesAux comps [] [] none).map Prod.fst).flatten
      = chars := by
    rw [haux.1]
    simpa using hfl.1
  have hflc : ((syllablesAux comps [] [] none).map Prod.snd).flatten
      = cv := by
    rw [haux.2]
    simpa using hfl.2
  have hnp : ∀ part ∈ (syllablesAux comps [] [] none).map Prod.fst,
      '-' ∉ part := by
    intro part hpart hmem
    exact hdp (hflp ▸ List.mem_flatten.mpr ⟨part, hpart, hmem⟩)
  have hnc : ∀ part ∈ (syllablesAux comps [] [] none).map Prod.snd,
      '-' ∉ part := by
    intro part hpart hmem
    exact hdc (hflc ▸ List.mem_flatten.mpr ⟨part, hpart, hmem⟩)
  have hne : syllablesAux comps [] [] none ≠ [] :=
    syllablesAux_ne_nil comps [] [] none
  constructor
  · intro s hs
    rw [← hp, splitOnSep_joinSep (by simpa using hne) hnp] at hs
    obtain ⟨pr, hpr, hpr2⟩ := List.mem_map.mp hs
    exact hpr2 ▸ (hwf pr hpr).1
  · intro s hs
    rw [← hc, splitOnSep_joinSep (by simpa using hne) hnc] at hs
    obtain ⟨pr, hpr, hpr2⟩ := List.mem_map.mp hs
    exact hpr2 ▸ (hwf pr hpr).2

/-- Witness for the amended C10 at a concrete input: the output for `"ta"`
splits into one non-empty syllable whose CV spelling has exactly one
`V`. -/
theorem claim_C10_witness :
    (∀ s ∈ splitOnSep '-' ['t', 'a'], s ≠ []) ∧
    (∀ s ∈ splitOnSep '-' ['C', 'V'], s.count 'V' = 1) :=
  claim_C10_amended (phon_to_rank_pure demoDict) ['t', 'a'] ['C', 'V']
    [(Kind.onset, ['t'], ['C']), (Kind.nucleus, ['a'], ['V'])]
    ['t', 'a'] ['C', 'V'] rfl (by decide) (by decide) (by decide)
    demo_eval_ta_det (by decide)

end Phono
